import Mathlib

/-!
# Network file-sharing server: the protocol engine of `server.cpp`

A shallow embedding of the line codec (`send_all`, `recv_all`, `recv_line`,
`send_line`), of path confinement (`safe_join`), of the three command handlers
and of the session loop (`client_thread`), followed by the properties proved
about them.

* The C++ `char` is rendered as `Char`, `std::string` and byte buffers as
  `List Char`, and `size_t`/`uint64_t`/`uintmax_t` as `Nat`: every subtraction
  in the source is guarded by a comparison, and the counters `sent`, `got` and
  `left` stay within the declared length as long as `send` and `recv` return no
  more than they were asked for, so nothing wraps. The one place where the
  64-bit range matters, the extraction of the PUT size, reduces modulo `2^64`
  explicitly.
* The operating system is a parameter: the socket is a pair of streams whose
  behaviour (how `recv` cuts the input, what `send` answers) is arbitrary, and
  the filesystem is a record of what the calls of `std::filesystem` and the
  file streams report.
* A call can end in three ways (`Outcome`): it returns, an exception leaves it,
  or it has no defined behaviour.
-/

set_option autoImplicit false

namespace FileServer

/-! ## The socket -/

/-- The receiving half of a connected socket: the bytes the peer has sent and
that no `recv` has delivered yet (after them `recv` returns `0`), and the way
the kernel cuts them into deliveries: the `k`-th call of `recv` hands over at
most `cut k + 1` bytes. `log` records the sizes requested by the calls made so
far, oldest first. -/
structure InStream where
  buf : List Char
  cut : Nat → Nat
  log : List Nat

/-- The sending half: the bytes `send` has accepted so far, what the `k`-th
call of `send` answers when asked to take `req` bytes (a value `<= 0` is a
failure), and the values the calls made so far have returned, oldest first. -/
structure OutStream where
  wire : List Char
  answer : Nat → Nat → Int
  log : List Int

/-- One call `::recv(fd, p, req, 0)`: the bytes stored at `p` (their number is
the return value; none at end of stream) and the stream afterwards. -/
def recv (s : InStream) (req : Nat) : List Char × InStream :=
  let n := min (min (s.cut s.log.length + 1) req) s.buf.length
  (s.buf.take n, { s with buf := s.buf.drop n, log := s.log ++ [req] })

/-- One call `::send(fd, p, req, 0)` on the `req` bytes `bytes`: the return
value and the stream afterwards (a positive return value `n` means the first
`n` bytes were accepted). -/
def send (s : OutStream) (bytes : List Char) : Int × OutStream :=
  let n := s.answer s.log.length bytes.length
  if n ≤ 0 then (n, { s with log := s.log ++ [n] })
  else (n, { s with wire := s.wire ++ bytes.take n.toNat, log := s.log ++ [n] })

/-- The loop of `send_all`, entered with `sent` bytes already accepted. -/
def send_all_loop (data : List Char) (len : Nat) (sent : Nat) (s : OutStream) :
    Bool × OutStream :=
  if sent < len then
    match send s ((data.drop sent).take (len - sent)) with
    | (n, s1) =>
      if n ≤ 0 then (false, s1)
      else send_all_loop data len (sent + n.toNat) s1
  else (true, s)
termination_by len - sent
decreasing_by
  all_goals simp_wf
  all_goals omega

/-- `send_all(fd, data, len)` of server.cpp:24 (and client.cpp:15). -/
def send_all (s : OutStream) (data : List Char) (len : Nat) : Bool × OutStream :=
  send_all_loop data len 0 s

/-- The loop of `recv_all`, entered with the `got` bytes `acc` already stored. -/
def recv_all_loop (len : Nat) (got : Nat) (acc : List Char) (s : InStream) :
    Bool × List Char × InStream :=
  if got < len then
    match recv s (len - got) with
    | (bytes, s1) =>
      if bytes.length = 0 then (false, acc, s1)
      else recv_all_loop len (got + bytes.length) (acc ++ bytes) s1
  else (true, acc, s)
termination_by len - got
decreasing_by
  all_goals simp_wf
  all_goals omega

/-- `recv_all(fd, data, len)` of server.cpp:34: success flag, the bytes stored
in `data`, and the stream afterwards. -/
def recv_all (s : InStream) (len : Nat) : Bool × List Char × InStream :=
  recv_all_loop len 0 [] s

/-- The loop of `recv_line`, entered with `out` holding the line so far. -/
def recv_line_loop (out : List Char) (s : InStream) : Bool × List Char × InStream :=
  match h : recv s 1 with
  | ([], s1) => (false, out, s1)
  | (c :: _, s1) =>
    if c = '\n' then (true, out, s1)
    else if (out ++ [c]).length > 1000000 then (false, out ++ [c], s1)
    else recv_line_loop (out ++ [c]) s1
termination_by s.buf.length
decreasing_by
  simp_wf
  have h1 : (recv s 1).1.length ≠ 0 := by
    rw [h]; simp
  have h2 : s1 = (recv s 1).2 := by rw [h]
  subst h2
  simp only [recv, List.length_take, List.length_drop] at h1 ⊢
  omega

/-- `recv_line(fd, out)` of server.cpp:44: success flag, the content of `out`,
and the stream afterwards. -/
def recv_line (s : InStream) : Bool × List Char × InStream :=
  recv_line_loop [] s

/-- `send_line(fd, s)` of server.cpp:57. -/
def send_line (o : OutStream) (s : List Char) : Bool × OutStream :=
  send_all o (s ++ ['\n']) (s ++ ['\n']).length

/-- The peer keeps taking what is sent: every call of `send` with something to
send accepts at least one byte, and never more than it was given. -/
def Accepts (o : OutStream) : Prop :=
  ∀ k req, 0 < req → 0 < o.answer k req ∧ o.answer k req ≤ (req : Int)

/-! ## String streams -/

/-- `std::isspace` in the "C" locale, which `operator>>` uses to delimit tokens. -/
def isspace (c : Char) : Bool :=
  c = ' ' || c = '\t' || c = '\n' || c = '\x0b' || c = '\x0c' || c = '\r'

/-- An `std::istringstream`: the characters not yet extracted and the failbit.
(The eofbit needs no field: an extraction at the end of the buffer fails whether
or not it is set.) -/
structure istringstream where
  rest : List Char
  fail : Bool

/-- `iss >> str` for a `std::string` that holds `old`: the new content of the
string and the stream afterwards. A stream that has failed leaves the string
alone; otherwise leading whitespace is skipped and the string receives the
characters up to the next whitespace; when only whitespace is left the failbit
is set and the string is left alone. -/
def extract_string (iss : istringstream) (old : List Char) : List Char × istringstream :=
  if iss.fail then (old, iss)
  else
    let r := iss.rest.dropWhile isspace
    let tok := r.takeWhile (fun c => !isspace c)
    if tok = [] then (old, { rest := r, fail := true })
    else (tok, { rest := r.dropWhile (fun c => !isspace c), fail := false })

/-- The value of a string of decimal digits, most significant first. -/
def digits_value (ds : List Char) : Nat :=
  ds.foldl (fun acc c => 10 * acc + (c.toNat - '0'.toNat)) 0

/-- `iss >> v` for a `uint64_t` that holds `old` (`num_get` with the rules of
`strtoull`, base 10): leading whitespace is skipped, one sign is accepted, then
the longest run of digits is read. No digit: the value is 0 and the failbit is
set. A value above `2^64 - 1`: the value is `2^64 - 1` and the failbit is set.
A minus sign negates the value in the unsigned type. -/
def extract_uint64 (iss : istringstream) (old : Nat) : Nat × istringstream :=
  if iss.fail then (old, iss)
  else
    let r := iss.rest.dropWhile isspace
    if r = [] then (old, { rest := r, fail := true })
    else
      let neg := r.head? = some '-'
      let r1 := if r.head? = some '-' ∨ r.head? = some '+' then r.tail else r
      let ds := r1.takeWhile Char.isDigit
      let r2 := r1.dropWhile Char.isDigit
      if ds = [] then (0, { rest := r2, fail := true })
      else if 2 ^ 64 ≤ digits_value ds then (2 ^ 64 - 1, { rest := r2, fail := true })
      else if neg then ((2 ^ 64 - digits_value ds) % 2 ^ 64, { rest := r2, fail := false })
      else (digits_value ds, { rest := r2, fail := false })

/-- `std::getline(iss, str)` for a string that holds `old`: the characters up to
the next newline (which is extracted and dropped) or to the end; at the end of
the buffer the failbit is set and the string is left alone. -/
def getline (iss : istringstream) (old : List Char) : List Char × istringstream :=
  if iss.fail then (old, iss)
  else if iss.rest = [] then (old, { rest := [], fail := true })
  else (iss.rest.takeWhile (fun c => c ≠ '\n'),
        { rest := (iss.rest.dropWhile (fun c => c ≠ '\n')).tail, fail := false })

/-- What `os << n` writes for an unsigned integer: its decimal digits. -/
def decimal (n : Nat) : List Char := Nat.toDigits 10 n

/-! ## Paths and the filesystem -/

/-- An `fs::path`, as the sequence of elements that `begin()` .. `end()`
iterates: the root directory `/` first when the path is absolute, then the
file names, then an empty element when the path ends in a separator. -/
abbrev Path := List (List Char)

/-- The pieces of a string between its `/` separators. -/
def split_slash : List Char → List (List Char)
  | [] => [[]]
  | c :: cs =>
    match split_slash cs with
    | [] => [[]]
    | piece :: pieces => if c = '/' then [] :: piece :: pieces else (c :: piece) :: pieces

/-- The constructor `fs::path(str)`. -/
def fs_path (str : List Char) : Path :=
  let names := (split_slash str).filter (fun piece => piece ≠ [])
  (if str.head? = some '/' then [['/']] else [])
    ++ names
    ++ (if str.getLast? = some '/' ∧ names ≠ [] then [[]] else [])

/-- The operator `p / q` of `fs::path`: an absolute `q` replaces `p`; otherwise
the elements of `q` follow those of `p` (after its trailing separator, if it
has one), and an empty `q` adds a trailing separator. -/
def path_append (p q : Path) : Path :=
  if q.head? = some ['/'] then q
  else
    let stem := if p.getLast? = some [] then p.dropLast else p
    if q = [] then (if stem = [] ∨ stem = [['/']] then stem else stem ++ [[]])
    else stem ++ q

/-- `p.parent_path()`. -/
def parent_path (p : Path) : Path :=
  if p = [['/']] then p else p.dropLast

/-- The `fs::file_type` that `fs::status(p, ec)` reports, as far as the server
distinguishes them. `none` is the type reported with an error (any failure of
`stat` other than a missing file): on it the throwing calls `fs::status(p)`,
`fs::exists(p)`, `fs::is_directory(p)` and `fs::is_regular_file(p)`, and the
same queries on a directory entry, throw `filesystem_error`. -/
inductive file_type where
  | none
  | not_found
  | regular
  | directory
  | other
deriving DecidableEq, Repr

/-- The filesystem as the server observes and changes it, and the behaviour of
the operating system it runs into.
* `weakly_canonical p`: the result of `fs::weakly_canonical(p)`, `none` when it
  throws `filesystem_error`;
* `status p`: the kind of file at the canonical path `p`;
* `file_size p`: the result of `fs::file_size(p, ec)`, `none` when `ec` is set;
* `content p`: the bytes an `std::ifstream` opened on `p` delivers, `none` when
  it cannot be opened (the file can change between `file_size` and the reads,
  so the two are separate observations);
* `entries p`: the file names `fs::directory_iterator(p)` yields, in its order;
* `iter_error p`: `some k` when the iteration over `p` throws in place of
  yielding its entry number `k` (counted from 0) or of reaching the end, so
  `some 0` is a directory that cannot be opened;
* `writable p`: whether the process may open `p` for writing;
* `readable p`: whether the process may open `p` for reading once it has
  written it;
* `write_fails p n k`: whether an `std::ofstream` on `p` that has been given `n`
  bytes is in a failed state after a `write` of `k` more bytes (a small write
  only fills the buffer of the stream and cannot fail);
* `kept p n`: of the `n` bytes given to an `std::ofstream` on `p`, how many the
  file holds once the stream has been closed (a failure of the last flush is
  reported to nobody);
* `after_create q`: the results of `fs::weakly_canonical` once a file or
  directory has been created at `q` (a symbolic link that dangled resolves,
  a relative path that did not exist becomes absolute). -/
structure Filesystem where
  weakly_canonical : Path → Option Path
  status : Path → file_type
  file_size : Path → Option Nat
  content : Path → Option (List Char)
  entries : Path → List (List Char)
  iter_error : Path → Option Nat
  writable : Path → Bool
  readable : Path → Bool
  write_fails : Path → Nat → Nat → Bool
  kept : Path → Nat → Nat
  after_create : Path → Path → Option Path

/-- The test `fs::exists(s)` on a status that was reported without error. -/
def Filesystem.exists (fs : Filesystem) (p : Path) : Bool :=
  decide (fs.status p ≠ file_type.not_found ∧ fs.status p ≠ file_type.none)

/-- The test `fs::is_directory(s)`. -/
def Filesystem.is_directory (fs : Filesystem) (p : Path) : Bool :=
  decide (fs.status p = file_type.directory)

/-- The test `fs::is_regular_file(s)`. -/
def Filesystem.is_regular_file (fs : Filesystem) (p : Path) : Bool :=
  decide (fs.status p = file_type.regular)

/-- Records the name of `q` in the listing of its parent directory. -/
def Filesystem.add_entry (fs : Filesystem) (q : Path) : Filesystem :=
  match q.getLast? with
  | none => fs
  | some name =>
    { fs with entries := fun d =>
        if d = q.dropLast ∧ name ∉ fs.entries d then fs.entries d ++ [name] else fs.entries d }

/-- `fs::create_directories(p)`: `none` when it throws (an empty path, or an
element of `p` that exists and is not a directory, or whose status cannot be
read); otherwise every missing directory on the way to `p`, and `p` itself, is
created. -/
def create_directories (fs : Filesystem) (p : Path) : Option Filesystem :=
  if p = [] then none
  else if p.inits.tail.any (fun q =>
      decide (fs.status q = file_type.regular ∨ fs.status q = file_type.other
        ∨ fs.status q = file_type.none)) then none
  else
    some (p.inits.tail.foldl (fun acc q =>
      if acc.status q = file_type.not_found then
        { acc.add_entry q with
            weakly_canonical := acc.after_create q
            status := fun r => if r = q then file_type.directory else acc.status r }
      else acc) fs)

/-- `std::ofstream ofs(p, std::ios::binary | std::ios::trunc)`: `none` when the
stream cannot be opened (no permission, a missing parent directory, a
directory, a path whose status cannot be read). Otherwise a missing file is
created empty, a regular file is emptied, and a device, FIFO or socket is
opened and stays what it is. -/
def open_trunc (fs : Filesystem) (p : Path) : Option Filesystem :=
  if fs.writable p = true ∧ fs.status (parent_path p) = file_type.directory
      ∧ p ≠ parent_path p then
    match fs.status p with
    | file_type.not_found =>
      some { fs.add_entry p with
        weakly_canonical := fs.after_create p
        status := fun r => if r = p then file_type.regular else fs.status r
        file_size := fun r => if r = p then some 0 else fs.file_size r
        content := fun r =>
          if r = p then (if fs.readable p then some [] else none) else fs.content r }
    | file_type.regular =>
      some { fs with
        file_size := fun r => if r = p then some 0 else fs.file_size r
        content := fun r =>
          if r = p then (if fs.readable p then some [] else none) else fs.content r }
    | file_type.other => some fs
    | file_type.directory => none
    | file_type.none => none
  else none

/-- The destructor of an `std::ofstream` opened on `p` to which the bytes
`given` have been written: the stream is flushed and closed. A regular file
holds afterwards the first `kept p given.length` of those bytes; what a
device, FIFO or socket was given is not in the filesystem. -/
def ofs_close (fs : Filesystem) (p : Path) (given : List Char) : Filesystem :=
  if fs.status p = file_type.regular then
    { fs with
      file_size := fun r =>
        if r = p then some (given.take (fs.kept p given.length)).length else fs.file_size r
      content := fun r =>
        if r = p then
          (if fs.readable p then some (given.take (fs.kept p given.length)) else none)
        else fs.content r }
  else fs

/-- Lexical canonical form of an absolute path: `.` and empty elements are
dropped and `..` removes the element before it (the root directory is its own
parent). This is what `fs::weakly_canonical` returns on a filesystem without
symbolic links for a path that exists or does not end in `.` or `..`. -/
def lexical_canonical (p : Path) : Path :=
  (p.foldl (fun acc e =>
    if e = [] ∨ e = ['.'] then acc
    else if e = ['.', '.'] then (match acc with
      | [] => []
      | [root] => [root]
      | _ :: _ :: _ => acc.dropLast)
    else acc ++ [e]) [])

/-! ## Path confinement -/

/-- How a call ends: it returns a value, or an exception leaves it (none is
caught anywhere in the server, so the process terminates), or it has no defined
behaviour. -/
inductive Outcome (α : Type) where
  | returned (a : α)
  | threw
  | undefined
deriving DecidableEq, Repr

/-- `std::mismatch(first1, last1, first2).first` on the three-iterator overload:
the rest of the first range from the first position where the ranges differ
(empty: `last1` was reached). The overload never looks at the end of the
second range: when that range runs out first, `*first2` reads past its end,
which has no defined behaviour (`none`). -/
def mismatch : Path → Path → Option Path
  | [], _ => some []
  | _ :: _, [] => none
  | a :: as, b :: bs => if a = b then mismatch as bs else some (a :: as)

/-- `safe_join(rel, out_abs)` of server.cpp:62, for the global `root_dir`: the
returned flag and the content of `out_abs` afterwards. -/
def safe_join (fs : Filesystem) (root_dir : List Char) (rel : Path) (out_abs : Path) :
    Outcome (Bool × Path) :=
  match fs.weakly_canonical (fs_path root_dir) with
  | none => Outcome.threw
  | some base =>
    match fs.weakly_canonical (path_append base rel) with
    | none => Outcome.threw
    | some tgt =>
      match mismatch base tgt with
      | none => Outcome.undefined
      | some first => if first = [] then Outcome.returned (true, tgt)
                      else Outcome.returned (false, out_abs)

/-! ## Command handlers -/

/-- `BUF_SZ` of server.cpp:19. -/
def BUF_SZ : Nat := 64 * 1024

/-- What a session acts on: the global `root_dir`, the filesystem, the two
halves of the client socket, and whether `close(cfd)` has been called. -/
structure World where
  root_dir : List Char
  fs : Filesystem
  inp : InStream
  out : OutStream
  closed : Bool

/-- A statement `send_line(fd, s);` whose result is not looked at. -/
def World.say (w : World) (s : List Char) : World :=
  { w with out := (send_line w.out s).2 }

/-- The line `handle_list` sends for the directory entry `name` of `p`
(server.cpp:80-84). -/
def list_line (fs : Filesystem) (p : Path) (name : List Char) : List Char :=
  let type := if fs.is_directory (p ++ [name]) then "dir".toList else "file".toList
  let sz := if fs.is_regular_file (p ++ [name]) then (fs.file_size (p ++ [name])).getD 0 else 0
  name ++ ['\t'] ++ type ++ ['\t'] ++ decimal sz

/-- The loop `for (auto& e : fs::directory_iterator(p))` of `handle_list`
(server.cpp:79-86) over the entries not yet visited, `stop` being the number of
entries the iteration still yields before it throws, if it does: the world
reached, and whether the loop ended by running out of entries (`false`: an
exception left it, thrown by the iterator or by `e.is_directory()` on an entry
whose status cannot be read, before the line of that entry is sent;
`e.is_regular_file()` asks for the same status, and `fs::file_size(p, ec)`
does not throw). -/
def list_loop (fs : Filesystem) (p : Path) :
    List (List Char) → Option Nat → World → World × Bool
  | _, some 0, w => (w, false)
  | [], _, w => (w, true)
  | name :: rest, stop, w =>
    if fs.status (p ++ [name]) = file_type.none then (w, false)
    else list_loop fs p rest (stop.map (fun k => k - 1)) (w.say (list_line fs p name))

/-- `handle_list(fd, arg)` of server.cpp:72. -/
def handle_list (w : World) (arg : List Char) : Outcome World :=
  match safe_join w.fs w.root_dir (if arg = [] then fs_path ['.'] else fs_path arg) [] with
  | Outcome.threw => Outcome.threw
  | Outcome.undefined => Outcome.undefined
  | Outcome.returned (ok, p) =>
    if !ok then Outcome.returned (w.say "ERR Invalid path".toList)
    else if w.fs.status p = file_type.none then Outcome.threw
    else if !w.fs.exists p || !w.fs.is_directory p then
      Outcome.returned (w.say "ERR Invalid path".toList)
    else
      match list_loop w.fs p (w.fs.entries p) (w.fs.iter_error p) (w.say "OK".toList) with
      | (w1, true) => Outcome.returned (w1.say "END".toList)
      | (_, false) => Outcome.threw

/-- The transfer loop of `handle_get` (server.cpp:108-113): `file` holds the
bytes the `ifstream` has not delivered yet, `left` the bytes still to send. -/
def get_loop (file : List Char) (left : Nat) (o : OutStream) : OutStream :=
  if 0 < left then
    if file.length < min BUF_SZ left then o
    else
      match send_all o (file.take (min BUF_SZ left)) (min BUF_SZ left) with
      | (false, o1) => o1
      | (true, o1) => get_loop (file.drop (min BUF_SZ left)) (left - min BUF_SZ left) o1
  else o
termination_by left
decreasing_by
  simp_wf
  simp only [BUF_SZ]
  omega

/-- `handle_get(fd, arg)` of server.cpp:90. -/
def handle_get (w : World) (arg : List Char) : Outcome World :=
  match safe_join w.fs w.root_dir (fs_path arg) [] with
  | Outcome.threw => Outcome.threw
  | Outcome.undefined => Outcome.undefined
  | Outcome.returned (ok, p) =>
    if !ok then Outcome.returned (w.say "ERR Not found".toList)
    else if w.fs.status p = file_type.none then Outcome.threw
    else if !w.fs.exists p || !w.fs.is_regular_file p then
      Outcome.returned (w.say "ERR Not found".toList)
    else
      match w.fs.file_size p with
      | none => Outcome.returned (w.say "ERR Cannot stat".toList)
      | some sz =>
        match w.fs.content p with
        | none => Outcome.returned (w.say "ERR Cannot open".toList)
        | some file =>
          match send_line w.out ("OK ".toList ++ decimal sz) with
          | (false, o1) => Outcome.returned { w with out := o1 }
          | (true, o1) => Outcome.returned { w with out := get_loop file sz o1 }

/-- The transfer loop of `handle_put` (server.cpp:129-136) and the end of the
function, for the stream `ofs` opened on `p` to which the bytes `given` have
been written, with `left` bytes still to receive. Every way out sends its
reply and then leaves the scope of `ofs`, which closes it. -/
def put_loop (p : Path) (left : Nat) (given : List Char) (w : World) : World :=
  if 0 < left then
    match recv_all w.inp (min BUF_SZ left) with
    | (false, _, i1) =>
      { w with inp := i1, fs := ofs_close w.fs p given }.say "ERR Read fail".toList
    | (true, bytes, i1) =>
      if w.fs.write_fails p given.length bytes.length then
        { w with inp := i1, fs := ofs_close w.fs p (given ++ bytes) }.say "ERR Write fail".toList
      else put_loop p (left - min BUF_SZ left) (given ++ bytes) { w with inp := i1 }
  else { w with fs := ofs_close w.fs p given }.say "OK".toList
termination_by left
decreasing_by
  simp_wf
  simp only [BUF_SZ]
  omega

/-- `handle_put(fd, iss)` of server.cpp:116. -/
def handle_put (w : World) (iss : istringstream) : Outcome World :=
  match extract_string iss [] with
  | (rel, iss1) =>
    match extract_uint64 iss1 0 with
    | (sz, iss2) =>
      if iss2.fail then Outcome.returned (w.say "ERR Bad header".toList)
      else
        match safe_join w.fs w.root_dir (fs_path rel) [] with
        | Outcome.threw => Outcome.threw
        | Outcome.undefined => Outcome.undefined
        | Outcome.returned (false, _) =>
          Outcome.returned (w.say "ERR Path outside root".toList)
        | Outcome.returned (true, p) =>
          match create_directories w.fs (parent_path p) with
          | none => Outcome.threw
          | some fs1 =>
            match open_trunc fs1 p with
            | none => Outcome.returned ({ w with fs := fs1 }.say "ERR Cannot open".toList)
            | some fs2 => Outcome.returned (put_loop p sz [] { w with fs := fs2 })

/-! ## Lines on the wire, and an example session -/

/-- The bytes of a sequence of lines on the wire: each line and its newline. -/
def wire_lines : List (List Char) → List Char
  | [] => []
  | l :: ls => l ++ '\n' :: wire_lines ls

/-- An example filesystem without symbolic links: the directories `/`, `/srv`
and `/srv/root`, and the regular file `/srv/root/notes.txt` holding `hello`.
Canonical forms are lexical, before and after a creation, and a file name
longer than 255 bytes makes `weakly_canonical` throw (`stat` fails on it with
`ENAMETOOLONG`, which `fs::status` reports as an error and not as a missing
file). Directories can be read, files can be written and read back, and
nothing that is written is lost. -/
def demo_fs : Filesystem where
  weakly_canonical := fun p =>
    if p.any (fun e => decide (255 < e.length)) then none else some (lexical_canonical p)
  status := fun p =>
    if p = [['/']] ∨ p = [['/'], "srv".toList] ∨ p = [['/'], "srv".toList, "root".toList] then
      file_type.directory
    else if p = [['/'], "srv".toList, "root".toList, "notes.txt".toList] then file_type.regular
    else file_type.not_found
  file_size := fun p =>
    if p = [['/'], "srv".toList, "root".toList, "notes.txt".toList] then some 5 else none
  content := fun p =>
    if p = [['/'], "srv".toList, "root".toList, "notes.txt".toList] then some "hello".toList
    else none
  entries := fun p =>
    if p = [['/']] then ["srv".toList]
    else if p = [['/'], "srv".toList] then ["root".toList]
    else if p = [['/'], "srv".toList, "root".toList] then ["notes.txt".toList]
    else []
  iter_error := fun _ => none
  writable := fun _ => true
  readable := fun _ => true
  write_fails := fun _ _ _ => false
  kept := fun _ n => n
  after_create := fun _ p =>
    if p.any (fun e => decide (255 < e.length)) then none else some (lexical_canonical p)

/-- An example session on `demo_fs` with root `/srv/root`: the client has sent
`input`, `recv` delivers up to three bytes a call, `send` takes everything. -/
def demo_world (input : List Char) : World where
  root_dir := "/srv/root".toList
  fs := demo_fs
  inp := { buf := input, cut := fun _ => 2, log := [] }
  out := { wire := [], answer := fun _ req => (req : Int), log := [] }
  closed := false

/-- The session of `demo_world` at the moment the file `notes.txt`, measured at
5 bytes by `file_size`, has been cut to 3 bytes by another session before it
is read. -/
def short_read_world : World :=
  { demo_world [] with
    fs := { demo_fs with
      content := fun p =>
        if p = [['/'], "srv".toList, "root".toList, "notes.txt".toList] then some "hel".toList
        else none } }

/-- The session of `demo_world` when `/srv/root/null` is a character device. -/
def device_world (input : List Char) : World :=
  { demo_world input with
    fs := { demo_fs with
      status := fun p =>
        if p = [['/'], "srv".toList, "root".toList, "null".toList] then file_type.other
        else demo_fs.status p
      entries := fun p =>
        if p = [['/'], "srv".toList, "root".toList] then ["notes.txt".toList, "null".toList]
        else demo_fs.entries p } }

/-- The session of `demo_world` when the server runs with a file mode creation
mask that takes the read permission away: the files it creates can be written
through the stream that created them, and cannot be opened for reading. -/
def write_only_world (input : List Char) : World :=
  { demo_world input with fs := { demo_fs with readable := fun _ => false } }

/-- The session of `demo_world` on a disk without free blocks: a file can be
created, a write of a few bytes stays in the buffer of the stream, and the
flush at the close of the stream stores nothing. -/
def full_disk_world (input : List Char) : World :=
  { demo_world input with fs := { demo_fs with kept := fun _ _ => 0 } }

/-- The session of `demo_world` when `/srv/root/link` is a symbolic link to the
missing file `/srv/x`: as long as the file is missing the canonical form of
`/srv/root/link` is lexical, and once the file has been created through the
link it is `/srv/x`. -/
def dangling_link_world (input : List Char) : World :=
  { demo_world input with
    fs := { demo_fs with
      entries := fun p =>
        if p = [['/'], "srv".toList, "root".toList] then ["notes.txt".toList, "link".toList]
        else demo_fs.entries p
      after_create := fun q p =>
        if q = [['/'], "srv".toList, "root".toList, "link".toList]
            ∧ p = [['/'], "srv".toList, "root".toList, "link".toList] then
          some [['/'], "srv".toList, "x".toList]
        else demo_fs.after_create q p } }

/-- The body of the loop of `client_thread` (server.cpp:149-164) for the line
`line`: whether the loop goes on (`false`: the `break` of `QUIT`), and the
world afterwards. -/
def session_step (w : World) (line : List Char) : Outcome (Bool × World) :=
  match extract_string { rest := line, fail := false } [] with
  | (cmd, iss) =>
    if cmd = "LIST".toList then
      match getline iss [] with
      | (path, _) =>
        match handle_list w (if path ≠ [] ∧ path.head? = some ' ' then path.tail else path) with
        | Outcome.returned w1 => Outcome.returned (true, w1)
        | Outcome.threw => Outcome.threw
        | Outcome.undefined => Outcome.undefined
    else if cmd = "GET".toList then
      match extract_string iss [] with
      | (path, _) =>
        match handle_get w path with
        | Outcome.returned w1 => Outcome.returned (true, w1)
        | Outcome.threw => Outcome.threw
        | Outcome.undefined => Outcome.undefined
    else if cmd = "PUT".toList then
      match handle_put w iss with
      | Outcome.returned w1 => Outcome.returned (true, w1)
      | Outcome.threw => Outcome.threw
      | Outcome.undefined => Outcome.undefined
    else if cmd = "QUIT".toList then Outcome.returned (false, w)
    else Outcome.returned (true, w.say "ERR Unknown".toList)

/-! ### Termination of the session loop

Every turn of the loop of `client_thread` takes at least the newline of its
command line off the stream and no handler gives bytes back, which is what
makes the definition of `client_thread` below well founded. -/

theorem recv_fst (s : InStream) (req : Nat) :
    (recv s req).1 = s.buf.take (min (min (s.cut s.log.length + 1) req) s.buf.length) := rfl

theorem recv_buf (s : InStream) (req : Nat) :
    (recv s req).2.buf = s.buf.drop (min (min (s.cut s.log.length + 1) req) s.buf.length) := rfl

theorem recv_cut (s : InStream) (req : Nat) : (recv s req).2.cut = s.cut := rfl

theorem recv_log (s : InStream) (req : Nat) : (recv s req).2.log = s.log ++ [req] := rfl

/-- The loop of `recv_all` delivers exactly the missing `len - got` bytes when
the stream holds that many, and otherwise fails having drained the stream. -/
theorem recv_all_loop_spec (len : Nat) :
    ∀ (n got : Nat) (acc : List Char) (s : InStream), len - got = n →
      (recv_all_loop len got acc s).2.2.cut = s.cut ∧
      (∃ l, (recv_all_loop len got acc s).2.2.log = s.log ++ l ∧ ∀ x ∈ l, x ≤ len - got) ∧
      (len - got ≤ s.buf.length →
        (recv_all_loop len got acc s).1 = true ∧
        (recv_all_loop len got acc s).2.1 = acc ++ s.buf.take (len - got) ∧
        (recv_all_loop len got acc s).2.2.buf = s.buf.drop (len - got)) ∧
      (s.buf.length < len - got →
        (recv_all_loop len got acc s).1 = false ∧
        (recv_all_loop len got acc s).2.2.buf = []) := by
  intro n
  induction n using Nat.strong_induction_on with
  | _ n ih =>
    intro got acc s hn
    rw [recv_all_loop]
    by_cases hlt : got < len
    · simp only [hlt, if_true]
      have hsplit : recv s (len - got) = ((recv s (len - got)).1, (recv s (len - got)).2) := rfl
      rw [hsplit]
      simp only []
      by_cases h0 : (recv s (len - got)).1.length = 0
      · simp only [h0, if_true]
        have hb : s.buf = [] := by
          rw [recv_fst, List.length_take] at h0
          have : s.buf.length = 0 := by omega
          exact List.length_eq_zero.mp this
        refine ⟨recv_cut _ _, ⟨[len - got], recv_log _ _, ?_⟩, ?_, ?_⟩
        · intro x hx
          simp at hx
          omega
        · intro hle
          rw [hb] at hle
          simp at hle
          omega
        · intro _
          rw [recv_buf, hb]
          simp
      · simp only [h0, if_false]
        have hk : (recv s (len - got)).1.length
            = min (min (s.cut s.log.length + 1) (len - got)) s.buf.length := by
          rw [recv_fst, List.length_take]
          omega
        generalize hkd : min (min (s.cut s.log.length + 1) (len - got)) s.buf.length = k at hk
        have hkpos : 0 < k := by omega
        have hkle : k ≤ len - got := by omega
        have hkbuf : k ≤ s.buf.length := by omega
        have hfst : (recv s (len - got)).1 = s.buf.take k := by rw [recv_fst, hkd]
        have hbuf : (recv s (len - got)).2.buf = s.buf.drop k := by rw [recv_buf, hkd]
        obtain ⟨ihc, ⟨l, ihl, ihlb⟩, ihok, ihbad⟩ :=
          ih (len - (got + k)) (by omega) (got + k) (acc ++ (recv s (len - got)).1)
            (recv s (len - got)).2 rfl
        rw [hk]
        refine ⟨by rw [ihc, recv_cut], ⟨(len - got) :: l, ?_, ?_⟩, ?_, ?_⟩
        · rw [ihl, recv_log]; simp
        · intro x hx
          rcases List.mem_cons.mp hx with h | h
          · omega
          · have := ihlb x h
            omega
        · intro hle
          have h1 : len - (got + k) ≤ (recv s (len - got)).2.buf.length := by
            rw [hbuf, List.length_drop]; omega
          obtain ⟨a, b, c⟩ := ihok h1
          refine ⟨a, ?_, ?_⟩
          · rw [b, hfst, hbuf, List.append_assoc]
            congr 1
            have e : len - got = k + (len - (got + k)) := by omega
            rw [e, List.take_add]
          · rw [c, hbuf, List.drop_drop]
            congr 1
            omega
        · intro hlt2
          have h1 : (recv s (len - got)).2.buf.length < len - (got + k) := by
            rw [hbuf, List.length_drop]; omega
          exact ihbad h1
    · simp only [hlt, if_false]
      have hz : len - got = 0 := by omega
      refine ⟨trivial, ⟨[], by simp, by simp⟩, ?_, ?_⟩
      · intro _
        simp [hz]
      · intro h
        omega

/-- The loop of `recv_all` never hands back bytes it has taken. -/
theorem recv_all_buf_le (s : InStream) (len : Nat) :
    (recv_all s len).2.2.buf.length ≤ s.buf.length := by
  obtain ⟨_, _, hok, hbad⟩ := recv_all_loop_spec len (len - 0) 0 [] s rfl
  by_cases h : len - 0 ≤ s.buf.length
  · obtain ⟨_, _, hb⟩ := hok h
    simp only [recv_all]
    rw [hb, List.length_drop]
    omega
  · obtain ⟨_, hb⟩ := hbad (by omega)
    simp only [recv_all]
    rw [hb]
    simp

theorem say_inp (w : World) (s : List Char) : (w.say s).inp = w.inp := rfl

theorem say_fs (w : World) (s : List Char) : (w.say s).fs = w.fs := rfl

/-- The transfer loop of `handle_put` never gives bytes back to the stream. -/
theorem put_loop_buf_le (p : Path) :
    ∀ (left : Nat) (given : List Char) (w : World),
      (put_loop p left given w).inp.buf.length ≤ w.inp.buf.length := by
  intro left
  induction left using Nat.strong_induction_on with
  | _ left ih =>
    intro given w
    rw [put_loop]
    by_cases h0 : 0 < left
    · simp only [h0, if_true]
      have hle := recv_all_buf_le w.inp (min BUF_SZ left)
      rcases hr : recv_all w.inp (min BUF_SZ left) with ⟨ok, bytes, i1⟩
      rw [hr] at hle
      cases ok with
      | false => simpa [say_inp] using hle
      | true =>
        simp only []
        split
        · simpa [say_inp] using hle
        · have hb : 0 < min BUF_SZ left := by simp only [BUF_SZ]; omega
          have := ih (left - min BUF_SZ left) (by omega) (given ++ bytes) { w with inp := i1 }
          simp only [] at this hle
          omega
    · simp only [h0, if_false]
      simp [say_inp]

/-- `handle_put` never gives bytes back to the stream. -/
theorem handle_put_buf_le (w w1 : World) (iss : istringstream)
    (h : handle_put w iss = Outcome.returned w1) : w1.inp.buf.length ≤ w.inp.buf.length := by
  unfold handle_put at h
  simp only [] at h
  split at h
  · cases h; simp [say_inp]
  · split at h
    · cases h
    · cases h
    · cases h; simp [say_inp]
    · split at h
      · cases h
      · split at h
        · cases h; simp [say_inp]
        · cases h
          exact put_loop_buf_le _ _ _ _

theorem recv_one_nil (s : InStream) (h : s.buf = []) :
    recv s 1 = ([], { s with buf := [], log := s.log ++ [1] }) := by
  simp [recv, h]

theorem recv_one_cons (s : InStream) (c : Char) (rest : List Char) (h : s.buf = c :: rest) :
    recv s 1 = ([c], { s with buf := rest, log := s.log ++ [1] }) := by
  have h1 : min (min (s.cut s.log.length + 1) 1) (rest.length + 1) = 1 := by omega
  simp [recv, h, h1]

theorem recv_line_loop_nil (out : List Char) (s : InStream) (h : s.buf = []) :
    recv_line_loop out s = (false, out, { s with buf := [], log := s.log ++ [1] }) := by
  rw [recv_line_loop]
  split
  · next s1 heq =>
    rw [recv_one_nil s h] at heq
    cases heq
    rfl
  · next c l s1 heq =>
    rw [recv_one_nil s h] at heq
    cases heq

theorem recv_line_loop_cons (out : List Char) (s : InStream) (c : Char) (rest : List Char)
    (h : s.buf = c :: rest) :
    recv_line_loop out s =
      if c = '\n' then (true, out, { s with buf := rest, log := s.log ++ [1] })
      else if (out ++ [c]).length > 1000000 then
        (false, out ++ [c], { s with buf := rest, log := s.log ++ [1] })
      else recv_line_loop (out ++ [c]) { s with buf := rest, log := s.log ++ [1] } := by
  rw [recv_line_loop]
  split
  · next s1 heq =>
    rw [recv_one_cons s c rest h] at heq
    cases heq
  · next c1 l s1 heq =>
    rw [recv_one_cons s c rest h] at heq
    cases heq
    rfl

/-- Reading a line takes at least one byte off the stream when it succeeds, and
never gives bytes back. -/
theorem recv_line_loop_buf :
    ∀ (buf out : List Char) (s : InStream), s.buf = buf →
      (recv_line_loop out s).2.2.buf.length ≤ buf.length ∧
      ((recv_line_loop out s).1 = true → (recv_line_loop out s).2.2.buf.length < buf.length) := by
  intro buf
  induction buf with
  | nil =>
    intro out s hb
    rw [recv_line_loop_nil out s hb]
    simp
  | cons c buf ih =>
    intro out s hb
    rw [recv_line_loop_cons out s c buf hb]
    split
    · simp
    · split
      · simp
      · have := ih (out ++ [c]) { s with buf := buf, log := s.log ++ [1] } rfl
        simp only [List.length_cons]
        constructor
        · omega
        · intro h
          have := this.2 h
          omega

theorem list_loop_inp (fs : Filesystem) (p : Path) :
    ∀ (names : List (List Char)) (stop : Option Nat) (w : World),
      (list_loop fs p names stop w).1.inp = w.inp := by
  intro names
  induction names with
  | nil =>
    intro stop w
    rcases stop with _ | _ | k <;> rfl
  | cons n names ih =>
    intro stop w
    rcases stop with _ | _ | k
    · simp only [list_loop]
      split
      · rfl
      · rw [ih, say_inp]
    · rfl
    · simp only [list_loop]
      split
      · rfl
      · rw [ih, say_inp]

theorem handle_list_inp (w w1 : World) (arg : List Char)
    (h : handle_list w arg = Outcome.returned w1) : w1.inp = w.inp := by
  unfold handle_list at h
  split at h
  · cases h
  · cases h
  · split at h
    · cases h; rfl
    · split at h
      · cases h
      · split at h
        · cases h; rfl
        · split at h
          · next w2 hl =>
            cases h
            have hi := congrArg (fun r => r.1.inp) hl
            simp only [list_loop_inp, say_inp] at hi
            rw [say_inp, ← hi]
          · cases h

theorem handle_get_inp (w w1 : World) (arg : List Char)
    (h : handle_get w arg = Outcome.returned w1) : w1.inp = w.inp := by
  unfold handle_get at h
  split at h
  · cases h
  · cases h
  · split at h
    · cases h; rfl
    · split at h
      · cases h
      · split at h
        · cases h; rfl
        · split at h
          · cases h; rfl
          · split at h
            · cases h; rfl
            · split at h
              · cases h; rfl
              · cases h; rfl

/-- One turn of the session loop never gives bytes back to the stream. -/
theorem session_step_buf_le (w w1 : World) (line : List Char) (b : Bool)
    (h : session_step w line = Outcome.returned (b, w1)) :
    w1.inp.buf.length ≤ w.inp.buf.length := by
  unfold session_step at h
  simp only [] at h
  split at h
  · split at h
    · cases h
      rename_i w2 hh
      rw [handle_list_inp _ _ _ hh]
    · cases h
    · cases h
  · split at h
    · split at h
      · cases h
        rename_i w2 hh
        rw [handle_get_inp _ _ _ hh]
      · cases h
      · cases h
    · split at h
      · split at h
        · cases h
          rename_i w2 hh
          exact handle_put_buf_le _ _ _ hh
        · cases h
        · cases h
      · split at h
        · cases h
          exact Nat.le_refl _
        · cases h
          rw [say_inp]

/-- `client_thread(cfd, addr)` of server.cpp:139, from the first `recv_line` on
(the log lines written to `std::cerr` are left out). -/
def client_thread (w : World) : Outcome World :=
  match h : recv_line w.inp with
  | (false, _, i1) => Outcome.returned { w with inp := i1, closed := true }
  | (true, line, i1) =>
    match h1 : session_step { w with inp := i1 } line with
    | Outcome.threw => Outcome.threw
    | Outcome.undefined => Outcome.undefined
    | Outcome.returned (false, w1) => Outcome.returned { w1 with closed := true }
    | Outcome.returned (true, w1) => client_thread w1
termination_by w.inp.buf.length
decreasing_by
  simp_wf
  have hl := (recv_line_loop_buf w.inp.buf [] w.inp rfl).2
  simp only [recv_line] at h
  rw [h] at hl
  have hl1 := hl rfl
  have hs := session_step_buf_le _ _ _ _ h1
  simp only [] at hl1 hs
  omega

/-! ## The line codec -/

/-- A line is read up to its newline when it is short enough. -/
theorem recv_line_loop_ok :
    ∀ (pre post out : List Char) (s : InStream), s.buf = pre ++ '\n' :: post → '\n' ∉ pre →
      (out ++ pre).length ≤ 1000000 →
      (recv_line_loop out s).1 = true ∧ (recv_line_loop out s).2.1 = out ++ pre ∧
      (recv_line_loop out s).2.2.buf = post ∧ (recv_line_loop out s).2.2.cut = s.cut := by
  intro pre
  induction pre with
  | nil =>
    intro post out s hb _ _
    rw [recv_line_loop_cons out s '\n' post (by simpa using hb)]
    simp
  | cons c pre ih =>
    intro post out s hb hn hl
    have hc : c ≠ '\n' := fun h => hn (by simp [h])
    have hn1 : '\n' ∉ pre := fun h => hn (by simp [h])
    rw [recv_line_loop_cons out s c (pre ++ '\n' :: post) (by simpa using hb)]
    have hl1 : ¬ (out ++ [c]).length > 1000000 := by
      simp only [List.length_append, List.length_cons, List.length_nil] at hl ⊢
      omega
    simp only [hc, hl1, if_false]
    have := ih post (out ++ [c]) { s with buf := pre ++ '\n' :: post, log := s.log ++ [1] }
      rfl hn1 (by simpa using hl)
    simpa using this

/-- Reading fails when the stream ends before a newline. -/
theorem recv_line_loop_eof :
    ∀ (buf out : List Char) (s : InStream), s.buf = buf → '\n' ∉ buf →
      (recv_line_loop out s).1 = false := by
  intro buf
  induction buf with
  | nil =>
    intro out s hb _
    rw [recv_line_loop_nil out s hb]
  | cons c buf ih =>
    intro out s hb hn
    have hc : c ≠ '\n' := fun h => hn (by simp [h])
    have hn1 : '\n' ∉ buf := fun h => hn (by simp [h])
    rw [recv_line_loop_cons out s c buf hb]
    simp only [hc, if_false]
    split
    · rfl
    · exact ih (out ++ [c]) _ rfl hn1

/-- Reading fails at the byte that makes the line longer than 1,000,000 bytes, and
reads nothing after it. -/
theorem recv_line_loop_long :
    ∀ (pre post out : List Char) (s : InStream), s.buf = pre ++ post → '\n' ∉ pre →
      pre ≠ [] → (out ++ pre).length = 1000001 →
      (recv_line_loop out s).1 = false ∧ (recv_line_loop out s).2.1 = out ++ pre ∧
      (recv_line_loop out s).2.2.buf = post := by
  intro pre
  induction pre with
  | nil => intro post out s _ _ hne _; exact absurd rfl hne
  | cons c pre ih =>
    intro post out s hb hn _ hl
    have hc : c ≠ '\n' := fun h => hn (by simp [h])
    have hn1 : '\n' ∉ pre := fun h => hn (by simp [h])
    rw [recv_line_loop_cons out s c (pre ++ post) (by simpa using hb)]
    simp only [hc, if_false]
    by_cases hp : pre = []
    · subst hp
      have hl1 : (out ++ [c]).length > 1000000 := by
        simp only [List.length_append, List.length_cons, List.length_nil] at hl ⊢
        omega
      rw [if_pos hl1]
      simp
    · have hpl : 0 < pre.length := List.length_pos.mpr hp
      have hl1 : ¬ (out ++ [c]).length > 1000000 := by
        simp only [List.length_append, List.length_cons, List.length_nil] at hl ⊢
        omega
      simp only [hl1, if_false]
      have := ih post (out ++ [c]) { s with buf := pre ++ post, log := s.log ++ [1] }
        rfl hn1 hp (by simpa using hl)
      simpa using this

theorem split_first (c : Char) (l : List Char) :
    c ∉ l ∨ ∃ pre post, l = pre ++ c :: post ∧ c ∉ pre := by
  induction l with
  | nil => left; simp
  | cons a l ih =>
    by_cases h : a = c
    · right
      exact ⟨[], l, by simp [h], by simp⟩
    · rcases ih with ih | ⟨pre, post, h1, h2⟩
      · left
        intro hm
        rcases List.mem_cons.mp hm with h3 | h3
        · exact h h3.symm
        · exact ih h3
      · right
        refine ⟨a :: pre, post, by simp [h1], ?_⟩
        intro hm
        rcases List.mem_cons.mp hm with h3 | h3
        · exact h h3.symm
        · exact h2 h3

/-- The session ends, with no further read, when `recv_line` fails. -/
theorem client_thread_recv_fail (w : World) (h : (recv_line w.inp).1 = false) :
    client_thread w
      = Outcome.returned { w with inp := (recv_line w.inp).2.2, closed := true } := by
  rw [client_thread]
  split
  · next x i1 heq => rw [heq]
  · next line i1 heq => rw [heq] at h; cases h

theorem client_thread_step (w : World) (line : List Char) (i1 : InStream)
    (h : recv_line w.inp = (true, line, i1)) :
    client_thread w =
      match session_step { w with inp := i1 } line with
      | Outcome.threw => Outcome.threw
      | Outcome.undefined => Outcome.undefined
      | Outcome.returned (false, w1) => Outcome.returned { w1 with closed := true }
      | Outcome.returned (true, w1) => client_thread w1 := by
  rw [client_thread]
  split
  · next x i2 heq => rw [h] at heq; cases heq
  · next line2 i2 heq =>
    rw [h] at heq
    cases heq
    split <;> simp_all

theorem send_snd_answer (s : OutStream) (bytes : List Char) : (send s bytes).2.answer = s.answer := by
  unfold send
  simp only []
  split <;> rfl

/-- What the loop of `send_all` does, for any behaviour of `send`. -/
theorem send_all_loop_spec (data : List Char) (len : Nat) (hlen : len ≤ data.length) :
    ∀ (n sent : Nat) (s : OutStream), len - sent = n →
      (send_all_loop data len sent s).2.answer = s.answer ∧
      ∃ (l : List Int) (m : Nat),
        (send_all_loop data len sent s).2.log = s.log ++ l ∧
        l.length ≤ len - sent ∧
        ((send_all_loop data len sent s).1 = true ↔ ∀ x ∈ l, (0 : Int) < x) ∧
        m ≤ len - sent ∧
        (send_all_loop data len sent s).2.wire = s.wire ++ (data.drop sent).take m ∧
        ((send_all_loop data len sent s).1 = true → m = len - sent) ∧
        ((∀ k req, 0 < req → 0 < s.answer k req) → (send_all_loop data len sent s).1 = true) := by
  intro n
  induction n using Nat.strong_induction_on with
  | _ n ih =>
    intro sent s hn
    rw [send_all_loop]
    by_cases hlt : sent < len
    · simp only [hlt, if_true]
      have hbl : ((data.drop sent).take (len - sent)).length = len - sent := by
        rw [List.length_take, List.length_drop]; omega
      unfold send
      simp only [hbl]
      generalize hv : s.answer s.log.length (len - sent) = v
      by_cases hv0 : v ≤ 0
      · simp only [hv0, if_true]
        refine ⟨trivial, [v], 0, rfl, by simp; omega, ?_, by omega, by simp, ?_, ?_⟩
        · simp; omega
        · intro h; simp at h
        · intro h
          have := h s.log.length (len - sent) (by omega)
          omega
      · simp only [hv0, if_false]
        obtain ⟨iha, l, m, ihl, ihlen, ihiff, ihm, ihw, ihc, ihacc⟩ :=
          ih (len - (sent + v.toNat)) (by omega) (sent + v.toNat)
            { s with wire := s.wire ++ ((data.drop sent).take (len - sent)).take v.toNat,
                     log := s.log ++ [v] } rfl
        simp only [] at iha ihl ihw ihc ihacc
        by_cases hvle : v.toNat ≤ len - sent
        · refine ⟨iha, v :: l, v.toNat + m, by rw [ihl]; simp, by simp; omega, ?_, by omega, ?_, ?_, ?_⟩
          · rw [ihiff]
            constructor
            · intro h x hx
              rcases List.mem_cons.mp hx with h1 | h1
              · omega
              · exact h x h1
            · intro h x hx
              exact h x (List.mem_cons_of_mem _ hx)
          · rw [ihw, List.take_take, min_eq_left hvle, List.append_assoc, List.take_add,
              List.drop_drop]
          · intro hok
            have := ihc hok
            omega
          · exact ihacc
        · have hm0 : m = 0 := by omega
          refine ⟨iha, v :: l, len - sent, by rw [ihl]; simp, by simp; omega, ?_, by omega, ?_, ?_, ?_⟩
          · rw [ihiff]
            constructor
            · intro h x hx
              rcases List.mem_cons.mp hx with h1 | h1
              · omega
              · exact h x h1
            · intro h x hx
              exact h x (List.mem_cons_of_mem _ hx)
          · rw [ihw, hm0, List.take_take]
            simp
            omega
          · intro _; rfl
          · exact ihacc
    · simp only [hlt, if_false]
      refine ⟨trivial, [], 0, by simp, by simp, by simp, by omega, by simp, ?_, ?_⟩
      · intro _; omega
      · intro _; trivial

/-- When no positive result of `send` exceeds what was asked for, the results of
a successful `send_all` add up to the length of the buffer. -/
theorem send_all_loop_sum (data : List Char) (len : Nat) (hlen : len ≤ data.length) :
    ∀ (n sent : Nat) (s : OutStream), len - sent = n →
      (∀ k req, 0 < s.answer k req → s.answer k req ≤ (req : Int)) →
      ∃ l : List Int, (send_all_loop data len sent s).2.log = s.log ++ l ∧
        ((send_all_loop data len sent s).1 = true → l.sum = ((len - sent : Nat) : Int)) := by
  intro n
  induction n using Nat.strong_induction_on with
  | _ n ih =>
    intro sent s hn hc
    rw [send_all_loop]
    by_cases hlt : sent < len
    · simp only [hlt, if_true]
      have hbl : ((data.drop sent).take (len - sent)).length = len - sent := by
        rw [List.length_take, List.length_drop]; omega
      unfold send
      simp only [hbl]
      have hcv := hc s.log.length (len - sent)
      generalize hv : s.answer s.log.length (len - sent) = v at hcv
      by_cases hv0 : v ≤ 0
      · simp only [hv0, if_true]
        exact ⟨[v], rfl, fun h => by simp at h⟩
      · simp only [hv0, if_false]
        obtain ⟨l, ihl, ihs⟩ :=
          ih (len - (sent + v.toNat)) (by omega) (sent + v.toNat)
            { s with wire := s.wire ++ ((data.drop sent).take (len - sent)).take v.toNat,
                     log := s.log ++ [v] } rfl hc
        simp only [] at ihl ihs
        refine ⟨v :: l, by rw [ihl]; simp, ?_⟩
        intro hok
        have := ihs hok
        have hle := hcv (by omega)
        simp only [List.sum_cons, this]
        omega
    · simp only [hlt, if_false]
      refine ⟨[], by simp, ?_⟩
      intro _
      simp
      omega

theorem send_all_answer (s : OutStream) (data : List Char) (len : Nat) (h : len ≤ data.length) :
    (send_all s data len).2.answer = s.answer :=
  (send_all_loop_spec data len h (len - 0) 0 s rfl).1

/-- Whatever the socket does, `send_line` puts an initial part of the line and
its newline on the wire, and nothing else. -/
theorem send_line_wire (o : OutStream) (x : List Char) :
    ∃ m, (send_line o x).2.wire = o.wire ++ (x ++ ['\n']).take m := by
  obtain ⟨_, l, m, _, _, _, _, hw, _, _⟩ :=
    send_all_loop_spec (x ++ ['\n']) (x ++ ['\n']).length (Nat.le_refl _)
      ((x ++ ['\n']).length - 0) 0 o rfl
  exact ⟨m, by simpa [send_line, send_all] using hw⟩

/-- A peer that keeps taking what is sent gets the whole buffer. -/
theorem send_all_accepts (o : OutStream) (data : List Char) (h : Accepts o) :
    (send_all o data data.length).1 = true ∧
    (send_all o data data.length).2.wire = o.wire ++ data ∧
    Accepts (send_all o data data.length).2 := by
  obtain ⟨ha, l, m, _, _, _, hm, hw, hc, hacc⟩ :=
    send_all_loop_spec data data.length (Nat.le_refl _) (data.length - 0) 0 o rfl
  have hok := hacc (fun k req hr => (h k req hr).1)
  have hm2 := hc hok
  refine ⟨hok, ?_, ?_⟩
  · simp only [send_all]
    rw [hw, hm2]
    simp
  · intro k req hr
    simp only [send_all]
    rw [ha]
    exact h k req hr

theorem send_line_accepts (o : OutStream) (x : List Char) (h : Accepts o) :
    (send_line o x).1 = true ∧ (send_line o x).2.wire = o.wire ++ x ++ ['\n'] ∧
    Accepts (send_line o x).2 := by
  have := send_all_accepts o (x ++ ['\n']) h
  simpa [send_line] using this

theorem say_out_wire (w : World) (x : List Char) (h : Accepts w.out) :
    (w.say x).out.wire = w.out.wire ++ x ++ ['\n'] ∧ Accepts (w.say x).out :=
  ⟨(send_line_accepts w.out x h).2.1, (send_line_accepts w.out x h).2.2⟩

theorem take_eq_length {α : Type} (X Y : List α) (m : Nat) (h : X.take m = Y) :
    X.take Y.length = Y := by
  subst h
  simp [List.length_take, List.take_take]

/-- A reply is recognised by what reaches the wire: if a `send_line` of `x` left
exactly the line `y` on the wire, then `y` is the start of the line `x`. -/
theorem say_wire_eq (w : World) (x y : List Char) (base : List Char)
    (hb : w.out.wire = base)
    (h : (w.say x).out.wire = base ++ y) : (x ++ ['\n']).take y.length = y := by
  obtain ⟨m, hm⟩ := send_line_wire w.out x
  have : (w.say x).out.wire = w.out.wire ++ (x ++ ['\n']).take m := hm
  rw [this, hb] at h
  exact take_eq_length _ _ m (List.append_cancel_left h)

/-- A reply that differs from the line `y` leaves something else on the wire. -/
theorem say_wire_ne (w : World) (x y base : List Char) (hb : w.out.wire = base)
    (hne : (x ++ ['\n']).take y.length ≠ y) : (w.say x).out.wire ≠ base ++ y :=
  fun h => hne (say_wire_eq w x y base hb h)

theorem demo_accepts (input : List Char) : Accepts (demo_world input).out := by
  intro k req hr
  simp only [demo_world]
  omega

/-! ## Numbers and tokens in a header -/

theorem digitChar_val (k : Nat) (h : k < 10) :
    (Nat.digitChar k).toNat - '0'.toNat = k ∧ (Nat.digitChar k).isDigit = true ∧
    isspace (Nat.digitChar k) = false ∧ Nat.digitChar k ≠ '-' ∧ Nat.digitChar k ≠ '+' := by
  interval_cases k <;> decide

theorem digits_fold_core :
    ∀ (fuel n : Nat) (ds : List Char), n < fuel →
      (Nat.toDigitsCore 10 fuel n ds).foldl (fun acc c => 10 * acc + (c.toNat - '0'.toNat)) 0
        = ds.foldl (fun acc c => 10 * acc + (c.toNat - '0'.toNat)) n := by
  intro fuel
  induction fuel with
  | zero => intro n ds h; omega
  | succ fuel ih =>
    intro n ds h
    simp only [Nat.toDigitsCore]
    have hd := (digitChar_val (n % 10) (Nat.mod_lt _ (by decide))).1
    split
    · next h0 =>
      simp only [List.foldl_cons, Nat.mul_zero, Nat.zero_add, hd]
      congr 1
      omega
    · next h0 =>
      rw [ih (n / 10) _ (by omega)]
      simp only [List.foldl_cons, hd]
      congr 1
      omega

/-- Reading back the digits that `<<` writes gives the number. -/
theorem digits_value_decimal (n : Nat) : digits_value (decimal n) = n := by
  simp only [digits_value, decimal, Nat.toDigits]
  rw [digits_fold_core (n + 1) n [] (by omega)]
  rfl

theorem toDigitsCore_all :
    ∀ (fuel n : Nat) (ds : List Char) (P : Char → Prop), (∀ k, k < 10 → P (Nat.digitChar k)) →
      (∀ c ∈ ds, P c) → ∀ c ∈ Nat.toDigitsCore 10 fuel n ds, P c := by
  intro fuel
  induction fuel with
  | zero => intro n ds P _ h; simpa [Nat.toDigitsCore] using h
  | succ fuel ih =>
    intro n ds P hP h
    simp only [Nat.toDigitsCore]
    have hd := hP (n % 10) (Nat.mod_lt _ (by decide))
    have h2 : ∀ c ∈ Nat.digitChar (n % 10) :: ds, P c := by
      intro c hc
      rcases List.mem_cons.mp hc with h1 | h1
      · rw [h1]; exact hd
      · exact h c h1
    split
    · exact h2
    · exact ih _ _ P hP h2

theorem toDigitsCore_ne_nil :
    ∀ (fuel n : Nat) (ds : List Char), (0 < fuel ∨ ds ≠ []) →
      Nat.toDigitsCore 10 fuel n ds ≠ [] := by
  intro fuel
  induction fuel with
  | zero =>
    intro n ds h
    rcases h with h | h
    · omega
    · simpa [Nat.toDigitsCore] using h
  | succ fuel ih =>
    intro n ds _
    simp only [Nat.toDigitsCore]
    split
    · simp
    · exact ih _ _ (Or.inr (by simp))

theorem decimal_ne_nil (n : Nat) : decimal n ≠ [] :=
  toDigitsCore_ne_nil (n + 1) n [] (Or.inl (by omega))

theorem decimal_all (n : Nat) (P : Char → Prop) (hP : ∀ k, k < 10 → P (Nat.digitChar k)) :
    ∀ c ∈ decimal n, P c :=
  toDigitsCore_all (n + 1) n [] P hP (by simp)

theorem takeWhile_all {α : Type} (p : α → Bool) (l : List α) (h : ∀ x ∈ l, p x = true) :
    l.takeWhile p = l ∧ l.dropWhile p = [] := by
  induction l with
  | nil => simp
  | cons a l ih =>
    have ha := h a (by simp)
    have := ih (fun x hx => h x (by simp [hx]))
    simp [List.takeWhile, List.dropWhile, ha, this]

/-- Extracting a number from a blank and the decimal digits of `n`: the number
itself when it fits 64 bits, a failure otherwise. -/
theorem extract_uint64_decimal (n old : Nat) (b : Char) (hb : isspace b = true) :
    extract_uint64 { rest := b :: decimal n, fail := false } old =
      if 2 ^ 64 ≤ n then (2 ^ 64 - 1, { rest := [], fail := true })
      else (n, { rest := [], fail := false }) := by
  obtain ⟨c, cs, hcs⟩ := List.exists_cons_of_ne_nil (decimal_ne_nil n)
  have hc : c ∈ decimal n := by rw [hcs]; simp
  have hsp : isspace c = false :=
    decimal_all n (fun c => isspace c = false) (fun k hk => (digitChar_val k hk).2.2.1) c hc
  have hm : c ≠ '-' :=
    decimal_all n (fun c => c ≠ '-') (fun k hk => (digitChar_val k hk).2.2.2.1) c hc
  have hp : c ≠ '+' :=
    decimal_all n (fun c => c ≠ '+') (fun k hk => (digitChar_val k hk).2.2.2.2) c hc
  have hdig := takeWhile_all Char.isDigit (decimal n)
    (decimal_all n (fun c => c.isDigit = true) (fun k hk => (digitChar_val k hk).2.1))
  have hdrop : (b :: decimal n).dropWhile isspace = decimal n := by
    rw [hcs]
    simp [List.dropWhile, hb, hsp]
  unfold extract_uint64
  simp only [hdrop]
  have hne := decimal_ne_nil n
  have hh : (decimal n).head? = some c := by rw [hcs]; rfl
  simp only [hh, Option.some.injEq, hm, hp, hdig.1, hdig.2, hne, digits_value_decimal,
    or_self, if_false, Bool.false_eq_true, decide_False]

/-- Extracting a token that is followed by a blank. -/
theorem extract_string_token (tok rest old : List Char) (b : Char) (hb : isspace b = true)
    (hne : tok ≠ []) (hws : ∀ c ∈ tok, isspace c = false) :
    extract_string { rest := b :: tok ++ b :: rest, fail := false } old =
      (tok, { rest := b :: rest, fail := false }) := by
  obtain ⟨c, cs, hcs⟩ := List.exists_cons_of_ne_nil hne
  have hc : isspace c = false := hws c (by rw [hcs]; simp)
  have hdrop : (b :: tok ++ b :: rest).dropWhile isspace = tok ++ b :: rest := by
    rw [hcs]
    simp [List.dropWhile, hb, hc]
  have htake : ∀ (l : List Char), (∀ x ∈ l, isspace x = false) →
      (l ++ b :: rest).takeWhile (fun c => !isspace c) = l ∧
      (l ++ b :: rest).dropWhile (fun c => !isspace c) = b :: rest := by
    intro l
    induction l with
    | nil => intro _; simp [List.takeWhile, List.dropWhile, hb]
    | cons a l ih =>
      intro h
      have ha := h a (by simp)
      have := ih (fun x hx => h x (by simp [hx]))
      simp [List.takeWhile, List.dropWhile, ha, this]
  unfold extract_string
  simp only [hdrop, (htake tok hws).1, (htake tok hws).2, hne, if_false, Bool.false_eq_true]

theorem extract_string_fst (line : List Char) :
    (extract_string { rest := line, fail := false } []).1
      = (line.dropWhile isspace).takeWhile (fun c => !isspace c) := by
  unfold extract_string
  simp only [Bool.false_eq_true, if_false]
  split
  · next h => rw [h]
  · rfl

/-! ## The handlers -/

/-- The transfer loop of `handle_get` sends the file chunk by chunk and stops at
the first chunk the file cannot fill. -/
theorem get_loop_spec :
    ∀ (left : Nat) (file : List Char) (o : OutStream), Accepts o →
      (get_loop file left o).wire =
        o.wire ++ file.take (if left ≤ file.length then left else file.length / BUF_SZ * BUF_SZ) ∧
      Accepts (get_loop file left o) := by
  intro left
  induction left using Nat.strong_induction_on with
  | _ left ih =>
    intro file o hacc
    rw [get_loop]
    by_cases h0 : 0 < left
    · simp only [h0, if_true]
      by_cases hshort : file.length < min BUF_SZ left
      · simp only [hshort, if_true]
        refine ⟨?_, hacc⟩
        have h1 : ¬ left ≤ file.length := by omega
        have h2 : file.length / BUF_SZ * BUF_SZ = 0 := by
          simp only [BUF_SZ] at hshort ⊢
          omega
        simp [h1, h2]
      · simp only [hshort, if_false]
        have hlen : (file.take (min BUF_SZ left)).length = min BUF_SZ left := by
          rw [List.length_take]; omega
        have hs := send_all_accepts o (file.take (min BUF_SZ left)) hacc
        rw [hlen] at hs
        obtain ⟨hs1, hs2, hs3⟩ := hs
        rcases hr : send_all o (file.take (min BUF_SZ left)) (min BUF_SZ left) with ⟨ok, o1⟩
        rw [hr] at hs1 hs2 hs3
        simp only [] at hs1 hs2 hs3
        subst hs1
        simp only []
        have hb : 0 < min BUF_SZ left := by simp only [BUF_SZ]; omega
        obtain ⟨ih1, ih2⟩ := ih (left - min BUF_SZ left) (by omega)
          (file.drop (min BUF_SZ left)) o1 hs3
        refine ⟨?_, ih2⟩
        rw [ih1, hs2, List.append_assoc, List.length_drop]
        congr 1
        by_cases hle : left ≤ file.length
        · have h3 : left - min BUF_SZ left ≤ file.length - min BUF_SZ left := by omega
          simp only [hle, h3, if_true]
          have e : left = min BUF_SZ left + (left - min BUF_SZ left) := by omega
          conv_rhs => rw [e, List.take_add]
        · have h3 : ¬ left - min BUF_SZ left ≤ file.length - min BUF_SZ left := by omega
          simp only [hle, h3, if_false]
          have hm : min BUF_SZ left = BUF_SZ := by omega
          rw [hm]
          have e : file.length / BUF_SZ * BUF_SZ
              = BUF_SZ + (file.length - BUF_SZ) / BUF_SZ * BUF_SZ := by
            rw [hm] at hshort
            simp only [BUF_SZ] at hshort ⊢
            omega
          rw [e, List.take_add]
    · simp only [h0, if_false]
      have : left = 0 := by omega
      subst this
      simp [hacc]

/-- What `handle_get` writes once the path is accepted, is a regular file, and
could be measured and opened. -/
theorem handle_get_spec (w : World) (arg : List Char) (p : Path) (n : Nat) (file : List Char)
    (hsj : safe_join w.fs w.root_dir (fs_path arg) [] = Outcome.returned (true, p))
    (hreg : w.fs.status p = file_type.regular)
    (hsz : w.fs.file_size p = some n) (hct : w.fs.content p = some file)
    (hacc : Accepts w.out) :
    ∃ w1, handle_get w arg = Outcome.returned w1 ∧
      w1.out.wire = w.out.wire ++ "OK ".toList ++ decimal n ++ ['\n']
        ++ file.take (if n ≤ file.length then n else file.length / BUF_SZ * BUF_SZ) ∧
      w1.inp = w.inp ∧ w1.fs = w.fs := by
  unfold handle_get
  rw [hsj]
  simp only [Filesystem.exists, Filesystem.is_regular_file, hreg, hsz, hct]
  obtain ⟨h1, h2, h3⟩ := send_line_accepts w.out ("OK ".toList ++ decimal n) hacc
  rcases hr : send_line w.out ("OK ".toList ++ decimal n) with ⟨ok, o1⟩
  rw [hr] at h1 h2 h3
  simp only [] at h1 h2 h3
  subst h1
  obtain ⟨g1, _⟩ := get_loop_spec n file o1 h3
  refine ⟨{ w with out := get_loop file n o1 }, by simp, ?_, rfl, rfl⟩
  simp only []
  rw [g1, h2]
  simp

theorem ofs_close_frame (fs : Filesystem) (p : Path) (given : List Char) :
    (ofs_close fs p given).weakly_canonical = fs.weakly_canonical ∧
    (ofs_close fs p given).status = fs.status ∧
    (ofs_close fs p given).readable = fs.readable ∧
    (ofs_close fs p given).kept = fs.kept := by
  unfold ofs_close
  split
  · exact ⟨rfl, rfl, rfl, rfl⟩
  · exact ⟨rfl, rfl, rfl, rfl⟩

/-- What a regular file that can be read holds once the stream that wrote it has
been closed. -/
theorem ofs_close_regular (fs : Filesystem) (p : Path) (given : List Char)
    (hreg : fs.status p = file_type.regular) (hread : fs.readable p = true) :
    (ofs_close fs p given).content p = some (given.take (fs.kept p given.length)) ∧
    (ofs_close fs p given).file_size p
      = some (given.take (fs.kept p given.length)).length := by
  unfold ofs_close
  rw [if_pos hreg]
  simp [hread]

/-- What the transfer loop of `handle_put` does: it ends with exactly one reply
and closes the stream on the bytes it has been given; the reply is `OK` when
the socket holds the `left` bytes and no write leaves the stream in a failed
state, and then exactly those bytes have gone from the socket to the stream. -/
theorem put_loop_spec (p : Path) :
    ∀ (left : Nat) (given : List Char) (w : World),
      ∃ (w1 : World) (g : List Char),
        w1.out = w.out ∧ w1.root_dir = w.root_dir ∧ w1.closed = w.closed ∧
        w1.inp.cut = w.inp.cut ∧
        (∃ l, w1.inp.log = w.inp.log ++ l ∧ ∀ x ∈ l, x ≤ BUF_SZ) ∧
        w1.fs = ofs_close w.fs p g ∧
        ((left ≤ w.inp.buf.length ∧
            put_loop p left given w = w1.say "OK".toList ∧
            w1.inp.buf = w.inp.buf.drop left ∧
            g = given ++ w.inp.buf.take left) ∨
         ((w.inp.buf.length < left ∨ ∃ n k, w.fs.write_fails p n k = true) ∧
            (put_loop p left given w = w1.say "ERR Read fail".toList ∨
             put_loop p left given w = w1.say "ERR Write fail".toList))) := by
  intro left
  induction left using Nat.strong_induction_on with
  | _ left ih =>
    intro given w
    rw [put_loop]
    by_cases h0 : 0 < left
    · simp only [h0, if_true]
      have hb : 0 < min BUF_SZ left := by simp only [BUF_SZ]; omega
      have hbl : min BUF_SZ left ≤ BUF_SZ := Nat.min_le_left _ _
      obtain ⟨rc, ⟨l, rl, rlb⟩, rok, rbad⟩ :=
        recv_all_loop_spec (min BUF_SZ left) (min BUF_SZ left - 0) 0 [] w.inp rfl
      rcases hr : recv_all w.inp (min BUF_SZ left) with ⟨ok, bytes, i1⟩
      simp only [recv_all] at hr
      rw [hr] at rc rl rok rbad
      simp only [Nat.sub_zero, List.nil_append] at rc rl rok rbad rlb
      by_cases hen : min BUF_SZ left ≤ w.inp.buf.length
      · obtain ⟨r1, r2, r3⟩ := rok hen
        subst r1
        subst r2
        simp only []
        by_cases hwf : w.fs.write_fails p given.length
            (w.inp.buf.take (min BUF_SZ left)).length = true
        · rw [if_pos hwf]
          refine ⟨{ w with
              inp := i1
              fs := ofs_close w.fs p (given ++ w.inp.buf.take (min BUF_SZ left)) },
            given ++ w.inp.buf.take (min BUF_SZ left), rfl, rfl, rfl, rc,
            ⟨l, rl, fun x hx => by have := rlb x hx; omega⟩, rfl,
            Or.inr ⟨Or.inr ⟨_, _, hwf⟩, Or.inr rfl⟩⟩
        · rw [if_neg hwf]
          obtain ⟨w1, g, a1, a2, a3, a4, ⟨l2, a5, a5b⟩, a6, a8⟩ :=
            ih (left - min BUF_SZ left) (by omega)
              (given ++ w.inp.buf.take (min BUF_SZ left)) { w with inp := i1 }
          simp only [] at a1 a2 a3 a4 a5 a6 a8
          refine ⟨w1, g, a1, a2, a3, by rw [a4, rc], ⟨l ++ l2, by rw [a5, rl]; simp, ?_⟩,
            a6, ?_⟩
          · intro x hx
            rcases List.mem_append.mp hx with h | h
            · have := rlb x h; omega
            · exact a5b x h
          · rcases a8 with ⟨b1, b3, b4, b5⟩ | ⟨b1, b2⟩
            · left
              rw [r3, List.length_drop] at b1
              refine ⟨by omega, b3, ?_, ?_⟩
              · rw [b4, r3, List.drop_drop]
                congr 1
                omega
              · rw [b5, r3, List.append_assoc]
                congr 1
                have e : left = min BUF_SZ left + (left - min BUF_SZ left) := by omega
                conv_rhs => rw [e, List.take_add]
            · right
              refine ⟨?_, b2⟩
              rcases b1 with b1 | b1
              · left
                rw [r3, List.length_drop] at b1
                omega
              · exact Or.inr b1
      · obtain ⟨r1, r3⟩ := rbad (by omega)
        subst r1
        simp only []
        refine ⟨{ w with inp := i1, fs := ofs_close w.fs p given }, given, rfl, rfl, rfl, rc,
          ⟨l, rl, fun x hx => by have := rlb x hx; omega⟩, rfl,
          Or.inr ⟨Or.inl (by omega), Or.inl rfl⟩⟩
    · simp only [h0, if_false]
      have hz : left = 0 := by omega
      subst hz
      refine ⟨{ w with fs := ofs_close w.fs p given }, given, rfl, rfl, rfl, rfl,
        ⟨[], by simp, by simp⟩, rfl, Or.inl ?_⟩
      simp

/-- The transfer loop of `handle_put` on a stream at its end. -/
theorem put_loop_eof (p : Path) (left : Nat) (given : List Char) (w : World) (h0 : 0 < left)
    (hb : w.inp.buf = []) :
    ∃ i1, put_loop p left given w
      = { w with inp := i1, fs := ofs_close w.fs p given }.say "ERR Read fail".toList := by
  rw [put_loop]
  simp only [h0, if_true]
  have hpos : 0 < min BUF_SZ left := by simp only [BUF_SZ]; omega
  obtain ⟨_, _, _, rbad⟩ :=
    recv_all_loop_spec (min BUF_SZ left) (min BUF_SZ left - 0) 0 [] w.inp rfl
  have h1 := (rbad (by rw [hb]; simpa using hpos)).1
  rcases hr : recv_all w.inp (min BUF_SZ left) with ⟨ok, bytes, i1⟩
  simp only [recv_all] at hr
  rw [hr] at h1
  simp only [] at h1
  subst h1
  exact ⟨i1, rfl⟩

theorem add_entry_frame (fs : Filesystem) (q : Path) :
    (fs.add_entry q).status = fs.status ∧ (fs.add_entry q).readable = fs.readable ∧
    (fs.add_entry q).kept = fs.kept ∧ (fs.add_entry q).write_fails = fs.write_fails ∧
    (fs.add_entry q).after_create = fs.after_create := by
  unfold Filesystem.add_entry
  split <;> simp

theorem mkdir_fold_frame (qs : List Path) :
    ∀ fs : Filesystem,
      (qs.foldl (fun acc q =>
        if acc.status q = file_type.not_found then
          { acc.add_entry q with
              weakly_canonical := acc.after_create q
              status := fun r => if r = q then file_type.directory else acc.status r }
        else acc) fs).readable = fs.readable ∧
      (qs.foldl (fun acc q =>
        if acc.status q = file_type.not_found then
          { acc.add_entry q with
              weakly_canonical := acc.after_create q
              status := fun r => if r = q then file_type.directory else acc.status r }
        else acc) fs).kept = fs.kept ∧
      (qs.foldl (fun acc q =>
        if acc.status q = file_type.not_found then
          { acc.add_entry q with
              weakly_canonical := acc.after_create q
              status := fun r => if r = q then file_type.directory else acc.status r }
        else acc) fs).write_fails = fs.write_fails := by
  induction qs with
  | nil => intro fs; exact ⟨rfl, rfl, rfl⟩
  | cons q qs ih =>
    intro fs
    rw [List.foldl_cons]
    split
    · obtain ⟨a, b, c⟩ := ih
        { fs.add_entry q with
          weakly_canonical := fs.after_create q
          status := fun r => if r = q then file_type.directory else fs.status r }
      rw [a, b, c]
      exact ⟨(add_entry_frame fs q).2.1, (add_entry_frame fs q).2.2.1,
        (add_entry_frame fs q).2.2.2.1⟩
    · exact ih fs

/-- Creating directories changes nothing about how files under them are written
and read. -/
theorem create_directories_frame (fs fs1 : Filesystem) (p : Path)
    (h : create_directories fs p = some fs1) :
    fs1.readable = fs.readable ∧ fs1.kept = fs.kept ∧ fs1.write_fails = fs.write_fails := by
  unfold create_directories at h
  split at h
  · cases h
  · split at h
    · cases h
    · cases h
      exact mkdir_fold_frame _ fs

/-- Opening a file for writing changes nothing about how it is written and
read. -/
theorem open_trunc_frame (fs fs2 : Filesystem) (p : Path) (h : open_trunc fs p = some fs2) :
    fs2.readable = fs.readable ∧ fs2.kept = fs.kept ∧ fs2.write_fails = fs.write_fails := by
  unfold open_trunc at h
  split at h
  · split at h
    · cases h
      exact ⟨(add_entry_frame fs p).2.1, (add_entry_frame fs p).2.2.1,
        (add_entry_frame fs p).2.2.2.1⟩
    · cases h
      exact ⟨rfl, rfl, rfl⟩
    · cases h
      exact ⟨rfl, rfl, rfl⟩
    · cases h
    · cases h
  · cases h

/-- The verdict of path confinement whenever the comparison stays inside the
target: acceptance exactly when the elements of the canonical root are the
first elements of the canonical target. -/
theorem mismatch_spec : ∀ (base tgt : Path),
    (base <+: tgt → mismatch base tgt = some []) ∧
    (¬ base <+: tgt → ¬ (tgt <+: base) → ∃ r, r ≠ [] ∧ mismatch base tgt = some r) ∧
    (tgt <+: base → tgt ≠ base → mismatch base tgt = none) := by
  intro base
  induction base with
  | nil =>
    intro tgt
    refine ⟨fun _ => rfl, fun h => absurd List.nil_prefix h, ?_⟩
    intro h hne
    have : tgt = [] := List.prefix_nil.mp h
    exact absurd this hne
  | cons a base ih =>
    intro tgt
    cases tgt with
    | nil =>
      refine ⟨?_, ?_, fun _ _ => rfl⟩
      · intro h
        have := List.prefix_nil.mp h
        cases this
      · intro _ h
        exact absurd List.nil_prefix h
    | cons b tgt =>
      obtain ⟨i1, i2, i3⟩ := ih tgt
      by_cases hab : a = b
      · subst hab
        simp only [mismatch, if_true]
        refine ⟨?_, ?_, ?_⟩
        · intro h
          exact i1 ((List.cons_prefix_cons.mp h).2)
        · intro h1 h2
          exact i2 (fun h => h1 (List.cons_prefix_cons.mpr ⟨rfl, h⟩))
            (fun h => h2 (List.cons_prefix_cons.mpr ⟨rfl, h⟩))
        · intro h hne
          exact i3 ((List.cons_prefix_cons.mp h).2) (fun h2 => hne (by rw [h2]))
      · simp only [mismatch, hab, if_false]
        refine ⟨?_, ?_, ?_⟩
        · intro h
          exact absurd (List.cons_prefix_cons.mp h).1 hab
        · intro _ _
          exact ⟨a :: base, by simp, rfl⟩
        · intro h
          exact absurd (List.cons_prefix_cons.mp h).1.symm hab

/-- The three ways `safe_join` ends once both canonical forms exist. -/
theorem safe_join_verdict (fs : Filesystem) (root_dir : List Char) (rel out_abs base tgt : Path)
    (hb : fs.weakly_canonical (fs_path root_dir) = some base)
    (ht : fs.weakly_canonical (path_append base rel) = some tgt) :
    (base <+: tgt → safe_join fs root_dir rel out_abs = Outcome.returned (true, tgt)) ∧
    (¬ base <+: tgt → ¬ (tgt <+: base) →
      safe_join fs root_dir rel out_abs = Outcome.returned (false, out_abs)) ∧
    (tgt <+: base → tgt ≠ base → safe_join fs root_dir rel out_abs = Outcome.undefined) := by
  obtain ⟨m1, m2, m3⟩ := mismatch_spec base tgt
  unfold safe_join
  simp only [hb, ht]
  refine ⟨?_, ?_, ?_⟩
  · intro h
    rw [m1 h]
    simp
  · intro h1 h2
    obtain ⟨r, hr, hm⟩ := m2 h1 h2
    rw [hm]
    simp [hr]
  · intro h1 h2
    rw [m3 h1 h2]

/-- The ways `handle_put` returns: one reply before the transfer, or the transfer
loop. -/
theorem handle_put_cases (w w1 : World) (iss : istringstream)
    (h : handle_put w iss = Outcome.returned w1) :
    ((extract_uint64 (extract_string iss []).2 0).2.fail = true ∧
        w1 = w.say "ERR Bad header".toList) ∨
    ((extract_uint64 (extract_string iss []).2 0).2.fail = false ∧
      ((∃ q, safe_join w.fs w.root_dir (fs_path (extract_string iss []).1) []
              = Outcome.returned (false, q) ∧
            w1 = w.say "ERR Path outside root".toList) ∨
       (∃ p fs1, safe_join w.fs w.root_dir (fs_path (extract_string iss []).1) []
              = Outcome.returned (true, p) ∧
            create_directories w.fs (parent_path p) = some fs1 ∧
            ((open_trunc fs1 p = none ∧
                w1 = { w with fs := fs1 }.say "ERR Cannot open".toList) ∨
             (∃ fs2, open_trunc fs1 p = some fs2 ∧
                w1 = put_loop p (extract_uint64 (extract_string iss []).2 0).1 []
                      { w with fs := fs2 }))))) := by
  unfold handle_put at h
  simp only [] at h
  split at h
  · next hf =>
    cases h
    exact Or.inl ⟨hf, rfl⟩
  · next hf =>
    have hf2 : (extract_uint64 (extract_string iss []).2 0).2.fail = false := by
      simpa using hf
    refine Or.inr ⟨hf2, ?_⟩
    split at h
    · cases h
    · cases h
    · next q hsj =>
      cases h
      exact Or.inl ⟨q, hsj, rfl⟩
    · next p hsj =>
      right
      split at h
      · cases h
      · next fs1 hcd =>
        refine ⟨p, fs1, hsj, hcd, ?_⟩
        split at h
        · next hop =>
          cases h
          exact Or.inl ⟨hop, rfl⟩
        · next fs2 hop =>
          cases h
          exact Or.inr ⟨fs2, hop, rfl⟩

/-- What `handle_put` has done to the stream and to the file according to the
reply it left on the wire. -/
theorem handle_put_reply (w w1 : World) (iss : istringstream)
    (h : handle_put w iss = Outcome.returned w1) :
    (w1.out.wire = w.out.wire ++ "OK\n".toList →
      (extract_uint64 (extract_string iss []).2 0).2.fail = false ∧
      ∃ (p : Path) (fs1 fs2 : Filesystem) (w2 : World),
        safe_join w.fs w.root_dir (fs_path (extract_string iss []).1) []
          = Outcome.returned (true, p) ∧
        create_directories w.fs (parent_path p) = some fs1 ∧ open_trunc fs1 p = some fs2 ∧
        w1 = w2.say "OK".toList ∧ w2.out = w.out ∧ w2.root_dir = w.root_dir ∧
        w2.fs = ofs_close fs2 p
          (w.inp.buf.take (extract_uint64 (extract_string iss []).2 0).1) ∧
        (extract_uint64 (extract_string iss []).2 0).1 ≤ w.inp.buf.length ∧
        w2.inp.buf = w.inp.buf.drop (extract_uint64 (extract_string iss []).2 0).1 ∧
        w2.inp.cut = w.inp.cut ∧
        (∃ l, w2.inp.log = w.inp.log ++ l ∧ ∀ x ∈ l, x ≤ BUF_SZ)) ∧
    (w1.out.wire = w.out.wire ++ "ERR Bad header\n".toList ∨
     w1.out.wire = w.out.wire ++ "ERR Path outside root\n".toList ∨
     w1.out.wire = w.out.wire ++ "ERR Cannot open\n".toList → w1.inp = w.inp) := by
  rcases handle_put_cases w w1 iss h with ⟨_, hw⟩ | ⟨hf, ⟨q, _, hw⟩ | ⟨p, fs1, hsj, hcd, hrest⟩⟩
  · subst hw
    refine ⟨fun hok => ?_, fun _ => rfl⟩
    exact absurd hok (say_wire_ne w _ _ _ rfl (by decide))
  · subst hw
    refine ⟨fun hok => ?_, fun _ => rfl⟩
    exact absurd hok (say_wire_ne w _ _ _ rfl (by decide))
  · rcases hrest with ⟨_, hw⟩ | ⟨fs2, hop, hw⟩
    · subst hw
      refine ⟨fun hok => ?_, fun _ => rfl⟩
      exact absurd hok (say_wire_ne { w with fs := fs1 } _ _ _ rfl (by decide))
    · obtain ⟨w2, g, a1, a2, _, a4, a5, a6, a8⟩ :=
        put_loop_spec p (extract_uint64 (extract_string iss []).2 0).1 [] { w with fs := fs2 }
      simp only [] at a1 a2 a4 a5 a6 a8
      rcases a8 with ⟨b1, b3, b4, b5⟩ | ⟨_, b2 | b2⟩
      · rw [b3] at hw
        subst hw
        constructor
        · intro _
          refine ⟨hf, p, fs1, fs2, w2, hsj, hcd, hop, rfl, a1, a2, ?_, b1, b4, a4, a5⟩
          rw [a6, b5, List.nil_append]
        · rintro (hbad | hbad | hbad)
          · exact absurd hbad (say_wire_ne w2 _ _ _ (by rw [a1]) (by decide))
          · exact absurd hbad (say_wire_ne w2 _ _ _ (by rw [a1]) (by decide))
          · exact absurd hbad (say_wire_ne w2 _ _ _ (by rw [a1]) (by decide))
      · rw [b2] at hw
        subst hw
        constructor
        · intro hok
          exact absurd hok (say_wire_ne w2 _ _ _ (by rw [a1]) (by decide))
        · rintro (hbad | hbad | hbad)
          · exact absurd hbad (say_wire_ne w2 _ _ _ (by rw [a1]) (by decide))
          · exact absurd hbad (say_wire_ne w2 _ _ _ (by rw [a1]) (by decide))
          · exact absurd hbad (say_wire_ne w2 _ _ _ (by rw [a1]) (by decide))
      · rw [b2] at hw
        subst hw
        constructor
        · intro hok
          exact absurd hok (say_wire_ne w2 _ _ _ (by rw [a1]) (by decide))
        · rintro (hbad | hbad | hbad)
          · exact absurd hbad (say_wire_ne w2 _ _ _ (by rw [a1]) (by decide))
          · exact absurd hbad (say_wire_ne w2 _ _ _ (by rw [a1]) (by decide))
          · exact absurd hbad (say_wire_ne w2 _ _ _ (by rw [a1]) (by decide))

/-- The path `handle_put` takes to the transfer loop. -/
theorem handle_put_transfer (w : World) (iss : istringstream) (p : Path) (fs1 fs2 : Filesystem)
    (hf : (extract_uint64 (extract_string iss []).2 0).2.fail = false)
    (hsj : safe_join w.fs w.root_dir (fs_path (extract_string iss []).1) []
      = Outcome.returned (true, p))
    (hcd : create_directories w.fs (parent_path p) = some fs1)
    (hop : open_trunc fs1 p = some fs2) :
    handle_put w iss = Outcome.returned
      (put_loop p (extract_uint64 (extract_string iss []).2 0).1 [] { w with fs := fs2 }) := by
  unfold handle_put
  simp only [hf, hsj, hcd, hop, Bool.false_eq_true, if_false]

/-- A transfer that finds its bytes on the socket, and whose writes leave the
stream in a good state, ends with the reply `OK`, the stream closed on those
bytes. -/
theorem handle_put_ok (w : World) (iss : istringstream) (p : Path) (fs1 fs2 : Filesystem)
    (hf : (extract_uint64 (extract_string iss []).2 0).2.fail = false)
    (hsj : safe_join w.fs w.root_dir (fs_path (extract_string iss []).1) []
      = Outcome.returned (true, p))
    (hcd : create_directories w.fs (parent_path p) = some fs1)
    (hop : open_trunc fs1 p = some fs2)
    (hbuf : (extract_uint64 (extract_string iss []).2 0).1 ≤ w.inp.buf.length)
    (hnf : ∀ n k, fs2.write_fails p n k = false)
    (hacc : Accepts w.out) :
    ∃ w1, handle_put w iss = Outcome.returned w1 ∧
      w1.out.wire = w.out.wire ++ "OK\n".toList ∧
      w1.fs = ofs_close fs2 p (w.inp.buf.take (extract_uint64 (extract_string iss []).2 0).1) ∧
      w1.root_dir = w.root_dir ∧ Accepts w1.out := by
  obtain ⟨w2, g, a1, a2, _, _, _, a6, a8⟩ :=
    put_loop_spec p (extract_uint64 (extract_string iss []).2 0).1 [] { w with fs := fs2 }
  simp only [] at a1 a2 a6 a8
  refine ⟨_, handle_put_transfer w iss p fs1 fs2 hf hsj hcd hop, ?_⟩
  rcases a8 with ⟨_, b3, _, b5⟩ | ⟨b1, _⟩
  · rw [b3]
    obtain ⟨s1, s2⟩ := say_out_wire w2 "OK".toList (by rw [a1]; exact hacc)
    refine ⟨?_, ?_, a2, s2⟩
    · rw [s1, a1, List.append_assoc]
      rfl
    · rw [say_fs, a6, b5, List.nil_append]
  · rcases b1 with b1 | ⟨n, k, b1⟩
    · omega
    · rw [hnf] at b1
      cases b1

/-- The reply of `handle_get` for a path that is accepted and names no regular
file. -/
theorem handle_get_not_found (w : World) (arg : List Char) (p : Path)
    (hsj : safe_join w.fs w.root_dir (fs_path arg) [] = Outcome.returned (true, p))
    (hst : w.fs.status p = file_type.not_found ∨ w.fs.status p = file_type.directory ∨
      w.fs.status p = file_type.other) :
    handle_get w arg = Outcome.returned (w.say "ERR Not found".toList) := by
  unfold handle_get
  rw [hsj]
  rcases hst with h | h | h <;> simp [Filesystem.exists, Filesystem.is_regular_file, h]

/-- The reply of `handle_get` for a path that path confinement rejects. -/
theorem handle_get_outside (w : World) (arg : List Char) (q : Path)
    (hsj : safe_join w.fs w.root_dir (fs_path arg) [] = Outcome.returned (false, q)) :
    handle_get w arg = Outcome.returned (w.say "ERR Not found".toList) := by
  unfold handle_get
  rw [hsj]
  simp

/-- The reply of `handle_get` for a regular file that cannot be opened. -/
theorem handle_get_cannot_open (w : World) (arg : List Char) (p : Path) (n : Nat)
    (hsj : safe_join w.fs w.root_dir (fs_path arg) [] = Outcome.returned (true, p))
    (hreg : w.fs.status p = file_type.regular)
    (hsz : w.fs.file_size p = some n) (hct : w.fs.content p = none) :
    handle_get w arg = Outcome.returned (w.say "ERR Cannot open".toList) := by
  unfold handle_get
  rw [hsj]
  simp [Filesystem.exists, Filesystem.is_regular_file, hreg, hsz, hct]

theorem wire_lines_append (a b : List (List Char)) :
    wire_lines (a ++ b) = wire_lines a ++ wire_lines b := by
  induction a with
  | nil => rfl
  | cons x a ih => simp [wire_lines, ih]

/-- The turn of the session loop for a line whose first token is `QUIT`. -/
theorem session_step_quit (w : World) (line : List Char)
    (h : (line.dropWhile isspace).takeWhile (fun c => !isspace c) = "QUIT".toList) :
    session_step w line = Outcome.returned (false, w) := by
  have h1 := extract_string_fst line
  rw [h] at h1
  unfold session_step
  rcases hr : extract_string { rest := line, fail := false } [] with ⟨cmd, iss⟩
  rw [hr] at h1
  simp only [] at h1
  subst h1
  simp only []
  rw [if_neg (by decide), if_neg (by decide), if_neg (by decide), if_pos trivial]

/-- The turn of the session loop for a line whose first token is no command. -/
theorem session_step_unknown (w : World) (line : List Char)
    (h1 : (line.dropWhile isspace).takeWhile (fun c => !isspace c) ≠ "LIST".toList)
    (h2 : (line.dropWhile isspace).takeWhile (fun c => !isspace c) ≠ "GET".toList)
    (h3 : (line.dropWhile isspace).takeWhile (fun c => !isspace c) ≠ "PUT".toList)
    (h4 : (line.dropWhile isspace).takeWhile (fun c => !isspace c) ≠ "QUIT".toList) :
    session_step w line = Outcome.returned (true, w.say "ERR Unknown".toList) := by
  have h0 := extract_string_fst line
  unfold session_step
  rcases hr : extract_string { rest := line, fail := false } [] with ⟨cmd, iss⟩
  rw [hr] at h0
  simp only [] at h0
  rw [← h0] at h1 h2 h3 h4
  simp only []
  rw [if_neg h1, if_neg h2, if_neg h3, if_neg h4]

/-- The turn of the session loop ends the loop only for `QUIT`. -/
theorem session_step_break (w w1 : World) (line : List Char)
    (h : session_step w line = Outcome.returned (false, w1)) :
    (line.dropWhile isspace).takeWhile (fun c => !isspace c) = "QUIT".toList := by
  have h0 := extract_string_fst line
  unfold session_step at h
  rcases hr : extract_string { rest := line, fail := false } [] with ⟨cmd, iss⟩
  rw [hr] at h0 h
  simp only [] at h0 h
  rw [← h0]
  split at h
  · split at h <;> cases h
  · split at h
    · split at h <;> cases h
    · split at h
      · split at h <;> cases h
      · split at h
        · assumption
        · cases h

/-! ## The claims -/

/-- C1, at the failing input: with the root `/srv/root` and the relative path
`..` the canonical target `/srv` has fewer elements than the root and agrees
with it on all of them, so `std::mismatch` reads past the end of the target:
`safe_join` has no defined result there, where the claim asks for a rejection.
(The sibling `/srv/root-evil/x` and the absolute path `/etc/passwd`, which
differ from the root inside the target, are rejected, and `a/../b` is
accepted.) -/
theorem safe_join_parent_undefined :
    demo_fs.weakly_canonical (fs_path "/srv/root".toList)
      = some [['/'], "srv".toList, "root".toList] ∧
    demo_fs.weakly_canonical
        (path_append [['/'], "srv".toList, "root".toList] (fs_path "..".toList))
      = some [['/'], "srv".toList] ∧
    safe_join demo_fs "/srv/root".toList (fs_path "..".toList) [] = Outcome.undefined ∧
    safe_join demo_fs "/srv/root".toList (fs_path "../root-evil/x".toList) []
      = Outcome.returned (false, []) ∧
    safe_join demo_fs "/srv/root".toList (fs_path "/etc/passwd".toList) []
      = Outcome.returned (false, []) ∧
    safe_join demo_fs "/srv/root".toList (fs_path "a/../b".toList) []
      = Outcome.returned (true, [['/'], "srv".toList, "root".toList, "b".toList]) :=
  ⟨rfl, rfl, rfl, rfl, rfl, rfl⟩

/-- C2 (amended). PUT/GET round trip: for every non-empty `rel` without
whitespace that path confinement accepts, and every byte sequence `B`, when
`handle_put` processes the header `rel S`, `S` the length of `B`, with `B`
next on the socket and leaves the reply `OK`, and the target is afterwards a
regular file (not a device, FIFO or socket) to which `rel` still resolves,
which the server may read and which holds every byte the stream was given when
it was closed, a following `handle_get` on `rel` writes the line `OK S`, then
the bytes of `B` in order, and nothing after them (the peer taking what is
sent). -/
theorem put_get_round_trip (w w1 : World) (rel B tail : List Char) (p : Path)
    (hrel : rel ≠ []) (hws : ∀ c ∈ rel, isspace c = false)
    (hB : w.inp.buf = B ++ tail) (hacc : Accepts w.out)
    (hsj : safe_join w.fs w.root_dir (fs_path rel) [] = Outcome.returned (true, p))
    (hkept : w.fs.kept p B.length = B.length) (hread : w.fs.readable p = true)
    (hput : handle_put w ⟨' ' :: rel ++ ' ' :: decimal B.length, false⟩ = Outcome.returned w1)
    (hok : w1.out.wire = w.out.wire ++ "OK\n".toList)
    (hcanon : safe_join w1.fs w1.root_dir (fs_path rel) [] = Outcome.returned (true, p))
    (hreg : w1.fs.status p = file_type.regular) :
    ∃ w2, handle_get w1 rel = Outcome.returned w2 ∧
      w2.out.wire = w1.out.wire ++ "OK ".toList ++ decimal B.length ++ ['\n'] ++ B := by
  obtain ⟨hf, p1, fs1, fs2, w2, hsj1, hcd, hop, e1, e2, _, e4, _⟩ :=
    (handle_put_reply w w1 _ hput).1 hok
  have hx := extract_string_token rel (decimal B.length) [] ' ' (by decide) hrel hws
  rw [hx] at hf hsj1 e4
  simp only [] at hf hsj1 e4
  have hy := extract_uint64_decimal B.length 0 ' ' (by decide)
  rw [hy] at hf e4
  rw [hsj] at hsj1
  cases hsj1
  by_cases hbig : 2 ^ 64 ≤ B.length
  · rw [if_pos hbig] at hf
    cases hf
  · rw [if_neg hbig] at e4
    simp only [] at e4
    have ht : w.inp.buf.take B.length = B := by rw [hB]; simp
    rw [ht] at e4
    subst e1
    have hacc2 : Accepts (w2.say "OK".toList).out :=
      (say_out_wire w2 "OK".toList (by rw [e2]; exact hacc)).2
    obtain ⟨_, k1, k2, k3⟩ := ofs_close_frame fs2 p B
    obtain ⟨c1, c2, _⟩ := create_directories_frame w.fs fs1 _ hcd
    obtain ⟨o1, o2, _⟩ := open_trunc_frame fs1 fs2 p hop
    rw [say_fs, e4, k1] at hreg
    have hread2 : fs2.readable p = true := by rw [o1, c1]; exact hread
    have hkept2 : fs2.kept p B.length = B.length := by rw [o2, c2]; exact hkept
    obtain ⟨q1, q2⟩ := ofs_close_regular fs2 p B hreg hread2
    rw [hkept2, List.take_length] at q1 q2
    obtain ⟨w3, g1, g2, _⟩ := handle_get_spec (w2.say "OK".toList) rel p B.length B hcanon
      (by rw [say_fs, e4, k1]; exact hreg) (by rw [say_fs, e4]; exact q2)
      (by rw [say_fs, e4]; exact q1) hacc2
    exact ⟨w3, g1, by simpa using g2⟩

/-- C2 (amended), on `PUT a.txt 3` with the body `abc` in the example session:
the following `GET a.txt` answers `OK 3` and `abc`. -/
theorem put_get_round_trip_witness :
    ∃ w1 w2, handle_put (demo_world "abcQUIT\n".toList) ⟨" a.txt 3".toList, false⟩
        = Outcome.returned w1 ∧
      handle_get w1 "a.txt".toList = Outcome.returned w2 ∧
      w2.out.wire = "OK\nOK 3\nabc".toList := by
  obtain ⟨w1, h1, h2, h3, h4, _⟩ := handle_put_ok (demo_world "abcQUIT\n".toList)
    ⟨" a.txt 3".toList, false⟩ [['/'], "srv".toList, "root".toList, "a.txt".toList]
    demo_fs ((open_trunc demo_fs [['/'], "srv".toList, "root".toList, "a.txt".toList]).getD demo_fs)
    rfl rfl rfl rfl (by decide) (fun _ _ => rfl) (demo_accepts _)
  obtain ⟨w2, g1, g2⟩ := put_get_round_trip (demo_world "abcQUIT\n".toList) w1 "a.txt".toList
    "abc".toList "QUIT\n".toList [['/'], "srv".toList, "root".toList, "a.txt".toList]
    (by decide) (by decide) rfl (demo_accepts _) rfl rfl rfl h1 h2
    (by rw [h3, h4]; rfl) (by rw [h3]; rfl)
  refine ⟨w1, w2, h1, g1, ?_⟩
  rw [g2, h2]
  rfl

/-- C2, as stated, fails, in three ways. A path with whitespace in it: `a 3` is
accepted by path confinement, the header `a 3 3` followed by `abc` is read as
the file `a` of 3 bytes and answered `OK`, and `handle_get` on `a 3` answers
`ERR Not found`. A device: the header `null 3` followed by `abc` is answered
`OK`, and `handle_get` on `null` answers `ERR Not found`. A file the server
may write and not read: the header `a.txt 3` followed by `abc` is answered
`OK`, and `handle_get` on `a.txt` answers `ERR Cannot open`. -/
theorem put_get_not_round_trip :
    (safe_join demo_fs "/srv/root".toList (fs_path "a 3".toList) []
        = Outcome.returned (true, [['/'], "srv".toList, "root".toList, "a 3".toList]) ∧
      ∃ w1 w2, handle_put (demo_world "abc".toList) ⟨" a 3 3".toList, false⟩
          = Outcome.returned w1 ∧
        w1.out.wire = "OK\n".toList ∧
        handle_get w1 "a 3".toList = Outcome.returned w2 ∧
        w2.out.wire = "OK\nERR Not found\n".toList) ∧
    (safe_join (device_world "abc".toList).fs "/srv/root".toList (fs_path "null".toList) []
        = Outcome.returned (true, [['/'], "srv".toList, "root".toList, "null".toList]) ∧
      ∃ w1 w2, handle_put (device_world "abc".toList) ⟨" null 3".toList, false⟩
          = Outcome.returned w1 ∧
        w1.out.wire = "OK\n".toList ∧
        handle_get w1 "null".toList = Outcome.returned w2 ∧
        w2.out.wire = "OK\nERR Not found\n".toList) ∧
    (safe_join (write_only_world "abc".toList).fs "/srv/root".toList (fs_path "a.txt".toList) []
        = Outcome.returned (true, [['/'], "srv".toList, "root".toList, "a.txt".toList]) ∧
      ∃ w1 w2, handle_put (write_only_world "abc".toList) ⟨" a.txt 3".toList, false⟩
          = Outcome.returned w1 ∧
        w1.out.wire = "OK\n".toList ∧
        handle_get w1 "a.txt".toList = Outcome.returned w2 ∧
        w2.out.wire = "OK\nERR Cannot open\n".toList) := by
  refine ⟨⟨rfl, ?_⟩, ⟨rfl, ?_⟩, ⟨rfl, ?_⟩⟩
  · obtain ⟨w1, h1, h2, h3, h4, h5⟩ := handle_put_ok (demo_world "abc".toList)
      ⟨" a 3 3".toList, false⟩ [['/'], "srv".toList, "root".toList, "a".toList]
      demo_fs ((open_trunc demo_fs [['/'], "srv".toList, "root".toList, "a".toList]).getD demo_fs)
      rfl rfl rfl rfl (by decide) (fun _ _ => rfl) (demo_accepts "abc".toList)
    have hg := handle_get_not_found w1 "a 3".toList
      [['/'], "srv".toList, "root".toList, "a 3".toList] (by rw [h3, h4]; rfl)
      (Or.inl (by rw [h3]; rfl))
    refine ⟨w1, _, h1, h2, hg, ?_⟩
    rw [(say_out_wire w1 _ h5).1, h2]
    rfl
  · obtain ⟨w1, h1, h2, h3, h4, h5⟩ := handle_put_ok (device_world "abc".toList)
      ⟨" null 3".toList, false⟩ [['/'], "srv".toList, "root".toList, "null".toList]
      (device_world "abc".toList).fs (device_world "abc".toList).fs
      rfl rfl rfl rfl (by decide) (fun _ _ => rfl) (demo_accepts "abc".toList)
    have hg := handle_get_not_found w1 "null".toList
      [['/'], "srv".toList, "root".toList, "null".toList] (by rw [h3, h4]; rfl)
      (Or.inr (Or.inr (by rw [h3]; rfl)))
    refine ⟨w1, _, h1, h2, hg, ?_⟩
    rw [(say_out_wire w1 _ h5).1, h2]
    rfl
  · obtain ⟨w1, h1, h2, h3, h4, h5⟩ := handle_put_ok (write_only_world "abc".toList)
      ⟨" a.txt 3".toList, false⟩ [['/'], "srv".toList, "root".toList, "a.txt".toList]
      (write_only_world "abc".toList).fs
      ((open_trunc (write_only_world "abc".toList).fs
        [['/'], "srv".toList, "root".toList, "a.txt".toList]).getD demo_fs)
      rfl rfl rfl rfl (by decide) (fun _ _ => rfl) (demo_accepts "abc".toList)
    have hg := handle_get_cannot_open w1 "a.txt".toList
      [['/'], "srv".toList, "root".toList, "a.txt".toList] 3 (by rw [h3, h4]; rfl)
      (by rw [h3]; rfl) (by rw [h3]; rfl) (by rw [h3]; rfl)
    refine ⟨w1, _, h1, h2, hg, ?_⟩
    rw [(say_out_wire w1 _ h5).1, h2]
    rfl

/-- A write that is lost at the close of the stream is reported to nobody: on a
full disk the header `a.txt 3` followed by `abc` is answered `OK`, and
`handle_get` on `a.txt` answers `OK 0` and no byte. -/
theorem put_get_lost_flush :
    ∃ w1 w2, handle_put (full_disk_world "abc".toList) ⟨" a.txt 3".toList, false⟩
        = Outcome.returned w1 ∧
      w1.out.wire = "OK\n".toList ∧
      handle_get w1 "a.txt".toList = Outcome.returned w2 ∧
      w2.out.wire = "OK\nOK 0\n".toList := by
  obtain ⟨w1, h1, h2, h3, h4, h5⟩ := handle_put_ok (full_disk_world "abc".toList)
    ⟨" a.txt 3".toList, false⟩ [['/'], "srv".toList, "root".toList, "a.txt".toList]
    (full_disk_world "abc".toList).fs
    ((open_trunc (full_disk_world "abc".toList).fs
      [['/'], "srv".toList, "root".toList, "a.txt".toList]).getD demo_fs)
    rfl rfl rfl rfl (by decide) (fun _ _ => rfl) (demo_accepts "abc".toList)
  obtain ⟨w2, g1, g2, _⟩ := handle_get_spec w1 "a.txt".toList
    [['/'], "srv".toList, "root".toList, "a.txt".toList] 0 [] (by rw [h3, h4]; rfl)
    (by rw [h3]; rfl) (by rw [h3]; rfl) (by rw [h3]; rfl) h5
  refine ⟨w1, w2, h1, h2, g1, ?_⟩
  rw [g2, h2]
  rfl

/-- A file created through a dangling symbolic link lies where the link points:
the header `link 3` followed by `abc` is answered `OK`, and `handle_get` on
`link`, whose canonical form is now outside the root, answers
`ERR Not found`. -/
theorem put_get_dangling_link :
    ∃ w1 w2, handle_put (dangling_link_world "abc".toList) ⟨" link 3".toList, false⟩
        = Outcome.returned w1 ∧
      w1.out.wire = "OK\n".toList ∧
      handle_get w1 "link".toList = Outcome.returned w2 ∧
      w2.out.wire = "OK\nERR Not found\n".toList := by
  obtain ⟨w1, h1, h2, h3, h4, h5⟩ := handle_put_ok (dangling_link_world "abc".toList)
    ⟨" link 3".toList, false⟩ [['/'], "srv".toList, "root".toList, "link".toList]
    (dangling_link_world "abc".toList).fs
    ((open_trunc (dangling_link_world "abc".toList).fs
      [['/'], "srv".toList, "root".toList, "link".toList]).getD demo_fs)
    rfl rfl rfl rfl (by decide) (fun _ _ => rfl) (demo_accepts "abc".toList)
  have hg := handle_get_outside w1 "link".toList [] (by rw [h3, h4]; rfl)
  refine ⟨w1, _, h1, h2, hg, ?_⟩
  rw [(say_out_wire w1 _ h5).1, h2]
  rfl

/-- C3. Line framing: `recv_line` succeeds if and only if the stream holds a
newline with at most 1,000,000 bytes before the first one; the line returned is
then the bytes before that newline, and exactly those bytes and the newline have
been taken off the stream. It fails when the stream ends before a newline, and
it fails on the byte that makes the line 1,000,001 bytes long, leaving what
follows that byte unread. On a failure `client_thread` closes the connection
without another read. -/
theorem recv_line_framing (w : World) :
    ((recv_line w.inp).1 = true ↔
      ∃ pre post, w.inp.buf = pre ++ '\n' :: post ∧ '\n' ∉ pre ∧ pre.length ≤ 1000000) ∧
    (∀ pre post, w.inp.buf = pre ++ '\n' :: post → '\n' ∉ pre → pre.length ≤ 1000000 →
      (recv_line w.inp).2.1 = pre ∧ (recv_line w.inp).2.2.buf = post) ∧
    ('\n' ∉ w.inp.buf → (recv_line w.inp).1 = false) ∧
    (∀ pre post, w.inp.buf = pre ++ post → '\n' ∉ pre → pre.length = 1000001 →
      (recv_line w.inp).1 = false ∧ (recv_line w.inp).2.2.buf = post) ∧
    ((recv_line w.inp).1 = false →
      client_thread w
        = Outcome.returned { w with inp := (recv_line w.inp).2.2, closed := true }) := by
  have hlong : ∀ pre post, w.inp.buf = pre ++ post → '\n' ∉ pre → pre.length = 1000001 →
      (recv_line w.inp).1 = false ∧ (recv_line w.inp).2.2.buf = post := by
    intro pre post hb hn hl
    have hne : pre ≠ [] := by
      intro h
      rw [h] at hl
      simp at hl
    obtain ⟨a, _, c⟩ := recv_line_loop_long pre post [] w.inp hb hn hne (by simpa using hl)
    exact ⟨a, c⟩
  refine ⟨⟨?_, ?_⟩, ?_, ?_, hlong, client_thread_recv_fail w⟩
  · intro hok
    rcases split_first '\n' w.inp.buf with hno | ⟨pre, post, hb, hn⟩
    · have := recv_line_loop_eof w.inp.buf [] w.inp rfl hno
      simp only [recv_line] at hok
      rw [this] at hok
      cases hok
    · by_cases hl : pre.length ≤ 1000000
      · exact ⟨pre, post, hb, hn, hl⟩
      · have hb2 : w.inp.buf = pre.take 1000001 ++ (pre.drop 1000001 ++ '\n' :: post) := by
          rw [← List.append_assoc, List.take_append_drop]
          exact hb
        have hn2 : '\n' ∉ pre.take 1000001 := fun h => hn (List.mem_of_mem_take h)
        have hl2 : (pre.take 1000001).length = 1000001 := by
          rw [List.length_take]
          omega
        have := (hlong _ _ hb2 hn2 hl2).1
        rw [this] at hok
        cases hok
  · rintro ⟨pre, post, hb, hn, hl⟩
    exact (recv_line_loop_ok pre post [] w.inp hb hn (by simpa using hl)).1
  · intro pre post hb hn hl
    obtain ⟨_, b, c, _⟩ := recv_line_loop_ok pre post [] w.inp hb hn (by simpa using hl)
    exact ⟨by simpa [recv_line] using b, c⟩
  · intro hno
    exact recv_line_loop_eof w.inp.buf [] w.inp rfl hno

/-- C3, on the stream `LIST`, newline, `QUIT`, newline: the line read is `LIST`
and the stream is left at `QUIT`. -/
theorem recv_line_framing_witness :
    (recv_line (demo_world "LIST\nQUIT\n".toList).inp).2.1 = "LIST".toList ∧
    (recv_line (demo_world "LIST\nQUIT\n".toList).inp).2.2.buf = "QUIT\n".toList :=
  (recv_line_framing (demo_world "LIST\nQUIT\n".toList)).2.1
    "LIST".toList "QUIT\n".toList rfl (by decide) (by decide)

/-- C4, at the failing inputs. The headers `a.txt` and `a.txt abc` are answered
`ERR Bad header` with the filesystem untouched, as the claim says. But the
header `a.txt 12abc` is not rejected: its size is read as 12, the file is
created, the 12 bytes that follow are stored and the reply is `OK`. The header
`a.txt -1` is not rejected either: its size is read as 18446744073709551615,
the file is created, and with nothing more on the stream the reply is
`ERR Read fail`. The claim asks for `ERR Bad header` and an unchanged
filesystem in both cases. -/
theorem handle_put_lenient_size :
    handle_put (demo_world []) ⟨" a.txt".toList, false⟩
      = Outcome.returned ((demo_world []).say "ERR Bad header".toList) ∧
    handle_put (demo_world []) ⟨" a.txt abc".toList, false⟩
      = Outcome.returned ((demo_world []).say "ERR Bad header".toList) ∧
    demo_fs.status [['/'], "srv".toList, "root".toList, "a.txt".toList] = file_type.not_found ∧
    (∃ w1, handle_put (demo_world "0123456789ab".toList) ⟨" a.txt 12abc".toList, false⟩
        = Outcome.returned w1 ∧
      w1.out.wire = "OK\n".toList ∧
      w1.fs.status [['/'], "srv".toList, "root".toList, "a.txt".toList] = file_type.regular) ∧
    (extract_uint64 (extract_string ⟨" a.txt -1".toList, false⟩ []).2 0).1
      = 18446744073709551615 ∧
    (∃ w1, handle_put (demo_world []) ⟨" a.txt -1".toList, false⟩ = Outcome.returned w1 ∧
      w1.out.wire = "ERR Read fail\n".toList ∧
      w1.fs.status [['/'], "srv".toList, "root".toList, "a.txt".toList] = file_type.regular) := by
  refine ⟨rfl, rfl, rfl, ?_, rfl, ?_⟩
  · obtain ⟨w1, h1, h2, h3, _⟩ := handle_put_ok (demo_world "0123456789ab".toList)
      ⟨" a.txt 12abc".toList, false⟩ [['/'], "srv".toList, "root".toList, "a.txt".toList]
      demo_fs
      ((open_trunc demo_fs [['/'], "srv".toList, "root".toList, "a.txt".toList]).getD demo_fs)
      rfl rfl rfl rfl (by decide) (fun _ _ => rfl) (demo_accepts _)
    exact ⟨w1, h1, h2, by rw [h3]; rfl⟩
  · have ht := handle_put_transfer (demo_world []) ⟨" a.txt -1".toList, false⟩
      [['/'], "srv".toList, "root".toList, "a.txt".toList] demo_fs
      ((open_trunc demo_fs [['/'], "srv".toList, "root".toList, "a.txt".toList]).getD demo_fs)
      rfl rfl rfl rfl
    obtain ⟨i1, hi⟩ := put_loop_eof [['/'], "srv".toList, "root".toList, "a.txt".toList]
      (extract_uint64 (extract_string ⟨" a.txt -1".toList, false⟩ []).2 0).1 []
      { demo_world [] with fs :=
          (open_trunc demo_fs [['/'], "srv".toList, "root".toList, "a.txt".toList]).getD demo_fs }
      (by decide) rfl
    rw [hi] at ht
    exact ⟨_, ht, ((say_out_wire _ "ERR Read fail".toList (demo_accepts [])).1).trans rfl, rfl⟩

/-- C6 (amended). Length of a GET body. When `handle_get` writes the header
`OK n` (the path is accepted, names a regular file whose size `file_size`
reports as `n`, and the file can be opened) and the peer takes what is sent,
it writes exactly `n` body bytes if the reads deliver at least `n` bytes;
if they deliver fewer, it stops at the first chunk that comes up short, having
written only the full chunks of 65536 bytes before it, which is fewer than `n`
bytes. Nothing follows the body. -/
theorem handle_get_body_length (w : World) (arg : List Char) (p : Path) (n : Nat)
    (file : List Char)
    (hsj : safe_join w.fs w.root_dir (fs_path arg) [] = Outcome.returned (true, p))
    (hreg : w.fs.status p = file_type.regular)
    (hsz : w.fs.file_size p = some n) (hct : w.fs.content p = some file)
    (hacc : Accepts w.out) :
    ∃ w1 body, handle_get w arg = Outcome.returned w1 ∧
      w1.out.wire = w.out.wire ++ "OK ".toList ++ decimal n ++ ['\n'] ++ body ∧
      (n ≤ file.length → body = file.take n ∧ body.length = n) ∧
      (file.length < n →
        body = file.take (file.length / 65536 * 65536) ∧
        body.length = file.length / 65536 * 65536 ∧ body.length < n) := by
  obtain ⟨w1, h1, h2, _⟩ := handle_get_spec w arg p n file hsj hreg hsz hct hacc
  refine ⟨w1, _, h1, h2, ?_, ?_⟩
  · intro hle
    rw [if_pos hle]
    exact ⟨rfl, by rw [List.length_take]; omega⟩
  · intro hlt
    rw [if_neg (by omega)]
    have hb : file.length / BUF_SZ * BUF_SZ ≤ file.length := Nat.div_mul_le_self _ _
    have hl : (file.take (file.length / BUF_SZ * BUF_SZ)).length
        = file.length / BUF_SZ * BUF_SZ := by
      rw [List.length_take]; omega
    refine ⟨rfl, hl, ?_⟩
    rw [hl]
    omega

/-- C6 (amended), on `GET notes.txt` in the example session: the five bytes of
the file follow the header. -/
theorem handle_get_body_length_witness :
    ∃ w1, handle_get (demo_world []) "notes.txt".toList = Outcome.returned w1 ∧
      w1.out.wire = "OK 5\nhello".toList := by
  obtain ⟨w1, body, h1, h2, h3, _⟩ := handle_get_body_length (demo_world [])
    "notes.txt".toList [['/'], "srv".toList, "root".toList, "notes.txt".toList] 5
    "hello".toList rfl rfl rfl rfl (demo_accepts _)
  refine ⟨w1, h1, ?_⟩
  rw [h2, (h3 (by decide)).1]
  rfl

/-- C6, as stated, fails: the header announces 5 bytes, the read of the 3 bytes
the file still has comes up short, and `handle_get` returns having written no
body byte at all, the peer taking everything it is sent. -/
theorem handle_get_short_read :
    Accepts short_read_world.out ∧
    ∃ w1, handle_get short_read_world "notes.txt".toList = Outcome.returned w1 ∧
      w1.out.wire = "OK 5\n".toList := by
  have hacc : Accepts short_read_world.out := demo_accepts []
  refine ⟨hacc, ?_⟩
  obtain ⟨w1, h1, h2, _⟩ := handle_get_spec short_read_world
    "notes.txt".toList [['/'], "srv".toList, "root".toList, "notes.txt".toList] 5
    "hel".toList rfl rfl rfl rfl hacc
  refine ⟨w1, h1, ?_⟩
  rw [h2]
  rfl

/-- C8. Session dispatch: the turn of the session loop for a received line ends
the session if and only if the first whitespace-delimited token of the line is
exactly `QUIT`, and then nothing is written and `client_thread`, having read
that line, closes the connection; for a line whose first token is none of
`LIST`, `GET`, `PUT`, `QUIT` it sends the one line `ERR Unknown`, touching
neither the input stream nor the filesystem, and `client_thread`, having read
that line, goes on with the next `recv_line`. -/
theorem session_dispatch (w : World) (line : List Char) (i1 : InStream) :
    ((∃ w1, session_step w line = Outcome.returned (false, w1)) ↔
      (line.dropWhile isspace).takeWhile (fun c => !isspace c) = "QUIT".toList) ∧
    ((line.dropWhile isspace).takeWhile (fun c => !isspace c) = "QUIT".toList →
      session_step w line = Outcome.returned (false, w) ∧
      (recv_line w.inp = (true, line, i1) →
        client_thread w = Outcome.returned { w with inp := i1, closed := true })) ∧
    ((line.dropWhile isspace).takeWhile (fun c => !isspace c) ≠ "LIST".toList →
     (line.dropWhile isspace).takeWhile (fun c => !isspace c) ≠ "GET".toList →
     (line.dropWhile isspace).takeWhile (fun c => !isspace c) ≠ "PUT".toList →
     (line.dropWhile isspace).takeWhile (fun c => !isspace c) ≠ "QUIT".toList →
      session_step w line = Outcome.returned (true, w.say "ERR Unknown".toList) ∧
      (w.say "ERR Unknown".toList).inp = w.inp ∧ (w.say "ERR Unknown".toList).fs = w.fs ∧
      (Accepts w.out →
        (w.say "ERR Unknown".toList).out.wire = w.out.wire ++ "ERR Unknown\n".toList) ∧
      (recv_line w.inp = (true, line, i1) →
        client_thread w = client_thread ({ w with inp := i1 }.say "ERR Unknown".toList))) := by
  refine ⟨⟨?_, ?_⟩, ?_, ?_⟩
  · rintro ⟨w1, h⟩
    exact session_step_break w w1 line h
  · intro h
    exact ⟨w, session_step_quit w line h⟩
  · intro h
    refine ⟨session_step_quit w line h, ?_⟩
    intro hr
    rw [client_thread_step w line i1 hr, session_step_quit _ line h]
  · intro h1 h2 h3 h4
    refine ⟨session_step_unknown w line h1 h2 h3 h4, rfl, rfl, ?_, ?_⟩
    · intro hacc
      have := (say_out_wire w "ERR Unknown".toList hacc).1
      rw [this, List.append_assoc]
      rfl
    · intro hr
      rw [client_thread_step w line i1 hr, session_step_unknown _ line h1 h2 h3 h4]

/-- C8, on the line `quit`: a lower-case keyword is answered `ERR Unknown` and
the loop goes on. -/
theorem session_dispatch_witness :
    session_step (demo_world []) "quit".toList
      = Outcome.returned (true, (demo_world []).say "ERR Unknown".toList) :=
  ((session_dispatch (demo_world []) "quit".toList (demo_world []).inp).2.2
    (by decide) (by decide) (by decide) (by decide)).1

/-- C9. Exact write: `send_all` with a zero length returns true without calling
`send`; on a buffer of `data.length` bytes it makes at most that many calls of
`send` (so it terminates); it returns true if and only if none of the calls it
made returned a value `<= 0`; and when it returns true the bytes accepted by the
successive calls, in order, are exactly the buffer, the results adding up to its
length. -/
theorem send_all_exact (s : OutStream) (data : List Char)
    (hc : ∀ k req, 0 < s.answer k req → s.answer k req ≤ (req : Int)) :
    send_all s data 0 = (true, s) ∧
    ∃ l : List Int,
      (send_all s data data.length).2.log = s.log ++ l ∧
      l.length ≤ data.length ∧
      ((send_all s data data.length).1 = true ↔ ∀ x ∈ l, (0 : Int) < x) ∧
      ((send_all s data data.length).1 = true →
        (send_all s data data.length).2.wire = s.wire ++ data ∧
        l.sum = (data.length : Int)) := by
  constructor
  · simp only [send_all]
    rw [send_all_loop]
    simp
  · obtain ⟨_, l, m, hl, hlen, hiff, hm, hw, hfull, _⟩ :=
      send_all_loop_spec data data.length (Nat.le_refl _) (data.length - 0) 0 s rfl
    obtain ⟨l2, hl2, hsum⟩ :=
      send_all_loop_sum data data.length (Nat.le_refl _) (data.length - 0) 0 s rfl hc
    have hll : l2 = l := List.append_cancel_left (hl2.symm.trans hl)
    subst hll
    refine ⟨l2, hl, by simpa using hlen, hiff, ?_⟩
    intro hok
    refine ⟨?_, by simpa using hsum hok⟩
    simp only [send_all]
    rw [hw, hfull hok]
    simp

/-- C9, at a socket that takes two bytes at a time: the five bytes of `hello`
reach the wire, in order. -/
theorem send_all_exact_witness :
    (send_all ⟨[], fun _ req => min (req : Int) 2, []⟩ "hello".toList 5).1 = true ∧
    (send_all ⟨[], fun _ req => min (req : Int) 2, []⟩ "hello".toList 5).2.wire
      = "hello".toList := by
  have hacc : Accepts ⟨[], fun _ req => min (req : Int) 2, []⟩ := by
    intro k req hr
    simp only []
    omega
  have hok := (send_all_accepts ⟨[], fun _ req => min (req : Int) 2, []⟩ "hello".toList hacc).1
  obtain ⟨_, l, _, _, _, hw⟩ :=
    send_all_exact ⟨[], fun _ req => min (req : Int) 2, []⟩ "hello".toList
      (fun _ req _ => min_le_left (req : Int) 2)
  exact ⟨hok, by simpa using (hw hok).1⟩

/-- C10. Bytes consumed by PUT: when `handle_put` leaves the reply `OK` on the
wire it has taken exactly the declared `size` bytes that follow the header line
off the stream, by calls of `recv` that ask for at most 65536 bytes each; when
it leaves `ERR Bad header`, `ERR Path outside root` or `ERR Cannot open` it has
taken nothing and called `recv` not at all, so the next `recv_line` starts at
the first byte that follows the header line. -/
theorem handle_put_consumes (w w1 : World) (iss : istringstream)
    (h : handle_put w iss = Outcome.returned w1) :
    (w1.out.wire = w.out.wire ++ "OK\n".toList →
      (extract_uint64 (extract_string iss []).2 0).1 ≤ w.inp.buf.length ∧
      w1.inp.buf = w.inp.buf.drop (extract_uint64 (extract_string iss []).2 0).1 ∧
      ∃ l, w1.inp.log = w.inp.log ++ l ∧ ∀ x ∈ l, x ≤ 65536) ∧
    (w1.out.wire = w.out.wire ++ "ERR Bad header\n".toList ∨
     w1.out.wire = w.out.wire ++ "ERR Path outside root\n".toList ∨
     w1.out.wire = w.out.wire ++ "ERR Cannot open\n".toList →
      w1.inp = w.inp ∧ recv_line w1.inp = recv_line w.inp) := by
  obtain ⟨hok, hbad⟩ := handle_put_reply w w1 iss h
  constructor
  · intro hw
    obtain ⟨_, p, fs1, fs2, w2, _, _, _, e1, _, _, _, b1, b2, _, b3⟩ := hok hw
    subst e1
    exact ⟨b1, b2, b3⟩
  · intro hw
    have := hbad hw
    exact ⟨this, by rw [this]⟩

/-- C10, on `PUT a.txt 3` followed by `abcQUIT`: the three bytes `abc` are taken,
and `QUIT` is what the session reads next. -/
theorem handle_put_consumes_witness :
    ∃ w1, handle_put (demo_world "abcQUIT\n".toList) ⟨" a.txt 3".toList, false⟩
        = Outcome.returned w1 ∧
      w1.inp.buf = "QUIT\n".toList := by
  obtain ⟨w1, h1, h2, _⟩ := handle_put_ok (demo_world "abcQUIT\n".toList)
    ⟨" a.txt 3".toList, false⟩ [['/'], "srv".toList, "root".toList, "a.txt".toList]
    demo_fs ((open_trunc demo_fs [['/'], "srv".toList, "root".toList, "a.txt".toList]).getD demo_fs)
    rfl rfl rfl rfl (by decide) (fun _ _ => rfl) (demo_accepts _)
  exact ⟨w1, h1, ((handle_put_consumes _ w1 _ h1).1 h2).2.1⟩

end FileServer
